import Mathlib

/-!
Verification of the information-extraction pipeline.

This file gives a shallow embedding, in Lean 4, of the core of the
`information_extractor` repository: the document segmenter
(`pipeline/segmenter.py`), the fusion/merge engine
(`pipeline/postprocessing.py`), the primary-value selectors
(`pipeline/selectors.py`), the party extractor
(`pipeline/party_extractor.py`), the tagger adapter
(`pipeline/ner_predictor.py`), and the record assembly in
`app.py::extract_full_data`.  Python strings are modelled as Lean
`String`s (lists of characters); regular-expression operations of the
source are translated into explicit character-level scanning functions,
each documented with the regex it implements.  Text is split into lines
up front (mirroring `str.splitlines`), so the segmenter operates on
`List String`.
-/

namespace InfoExtract

/-! ## Character and string primitives (Python `str` fragment) -/

/-- Python `\s` / `str.strip()` whitespace over the ASCII range. -/
def isPyWs (c : Char) : Bool :=
  c == ' ' || c == '\t' || c == '\n' || c == '\r' || c == '\x0b' || c == '\x0c'

/-- Python `\w`: word character `[A-Za-z0-9_]`. -/
def isWordChar (c : Char) : Bool :=
  c.isAlpha || c.isDigit || c == '_'

/-- Strip leading and trailing Python whitespace from a character list
(`str.strip()`). -/
def pyStripChars (l : List Char) : List Char :=
  ((l.dropWhile isPyWs).reverse.dropWhile isPyWs).reverse

/-- Python `str.strip()` on strings. -/
def pyStrip (s : String) : String :=
  String.mk (pyStripChars s.data)

/-- Case-insensitive prefix test: does `l` start with pattern `pat`
(ASCII case folding, as in `re.IGNORECASE`)? -/
def startsWithCI : List Char → List Char → Bool
  | [], _ => true
  | _ :: _, [] => false
  | p :: ps, c :: cs => (p.toLower == c.toLower) && startsWithCI ps cs

/-- Case-insensitive substring test (`pat.lower() in l.lower()`). -/
def findSubCI (pat : List Char) : List Char → Bool
  | [] => startsWithCI pat []
  | c :: cs => startsWithCI pat (c :: cs) || findSubCI pat cs

/-- Drop a case-insensitive literal prefix, returning the rest on success. -/
def dropCIPfx : List Char → List Char → Option (List Char)
  | [], l => some l
  | _ :: _, [] => none
  | p :: ps, c :: cs => if p.toLower == c.toLower then dropCIPfx ps cs else none

/-- Accumulator version of whitespace splitting: `acc` is the current
word, reversed. -/
def splitWsAux : List Char → List Char → List (List Char)
  | acc, [] => if acc.isEmpty then [] else [acc.reverse]
  | acc, c :: cs =>
    if isPyWs c then
      if acc.isEmpty then splitWsAux [] cs else acc.reverse :: splitWsAux [] cs
    else splitWsAux (c :: acc) cs

/-- Split a character list on runs of whitespace, dropping empty pieces
(Python `str.split()` with no argument). -/
def splitWsList (l : List Char) : List (List Char) :=
  splitWsAux [] l

/-! ## Segmenter (`pipeline/segmenter.py`)

The segmenter classifies the lines of the input into header / body /
order zones with a single-pass state machine, then post-splits the body
at an embedded `Held:`/`ORDER` marker when no order zone was found.  The
line-classification heuristics below translate the regexes of
`Segmenter._is_header_line`, `Segmenter._looks_like_order_start` and the
transition tests inside `Segmenter.split_segments`. -/

/-- Character class of `^[A-Z0-9 \.\-\(\)\,\:\[\]]{5,200}$`. -/
def headerClassChar (c : Char) : Bool :=
  ('A' ≤ c && c ≤ 'Z') || ('0' ≤ c && c ≤ '9') ||
  c == ' ' || c == '.' || c == '-' || c == '(' || c == ')' ||
  c == ',' || c == ':' || c == '[' || c == ']'

/-- The `header_markers` list of `Segmenter._is_header_line`. -/
def header_markers : List String :=
  ["IN THE SUPREME COURT", "CIVIL APPELLATE", "CRIMINAL APPELLATE",
   "IN THE HIGH COURT", "BENCH", "JUDGMENT", "CORAM", "CASE",
   "Crl.O.P", "CRLMC", "CRIMINAL APPLICATION", "CIVIL APPEAL",
   "Appearances for Parties", "Appearances", "Date of Judgment"]

/-- Word boundary `\b` placed after a pattern whose last character is a
word character: the next character must not be a word character (or we
are at the end). -/
def afterWordBoundary (rest : List Char) : Bool :=
  match rest with
  | [] => true
  | c :: _ => !(isWordChar c)

/-- Word boundary `\b` after a pattern ending in a word character
(`endsWord = true`) or in a non-word character (`endsWord = false`):
the two sides must differ in word-ness. -/
def altBoundary (endsWord : Bool) (rest : List Char) : Bool :=
  match rest with
  | [] => endsWord
  | c :: _ => endsWord != isWordChar c

/-- Scan all start positions of `l`, carrying the previous character;
true when `f prev suffix` holds somewhere. -/
def scanAny (f : Option Char → List Char → Bool) : Option Char → List Char → Bool
  | prev, [] => f prev []
  | prev, c :: cs => f prev (c :: cs) || scanAny f (some c) cs

/-- Pattern `\b v\.` with `re.I`: a word character, then a space, then
`v`/`V`, then a dot. -/
def capVee1 (prev : Option Char) (suf : List Char) : Bool :=
  match prev, suf with
  | some p, ' ' :: v :: '.' :: _ => isWordChar p && (v == 'v' || v == 'V')
  | _, _ => false

/-- Helper for `\bv\s+v\b`: after the whitespace run, a `v`/`V` followed
by a word boundary. -/
def wsThenVeeTail : List Char → Bool
  | [] => false
  | c :: cs =>
    if isPyWs c then wsThenVeeTail cs
    else (c == 'v' || c == 'V') && afterWordBoundary cs

/-- Pattern `\bv\s+v\b` with `re.I`. -/
def capVee2 (prev : Option Char) (suf : List Char) : Bool :=
  match suf with
  | v1 :: w :: rest =>
    (match prev with | none => true | some p => !(isWordChar p)) &&
    (v1 == 'v' || v1 == 'V') && isPyWs w && wsThenVeeTail (w :: rest) &&
    -- the \s+ must consume at least the first whitespace character
    true
  | _ => false

/-- Pattern ` v\.? $` with `re.I`: a space, `v`, an optional dot, a
space, end of line. -/
def capVee3 (suf : List Char) : Bool :=
  match suf with
  | [' ', v, ' '] => v == 'v' || v == 'V'
  | [' ', v, '.', ' '] => v == 'v' || v == 'V'
  | _ => false

/-- Pattern `\b v\. \b` (case-sensitive): a word character, ` v. `, then
a word character. -/
def capVee4 (prev : Option Char) (suf : List Char) : Bool :=
  match prev, suf with
  | some p, ' ' :: 'v' :: '.' :: ' ' :: c :: _ => isWordChar p && isWordChar c
  | _, _ => false

/-- Disjunction of the caption patterns searched by
`_is_header_line`: `\b v\.|\bv\s+v\b| v\.? $` (with `re.I`) and
`\b v\. \b`. -/
def captionVee (l : List Char) : Bool :=
  scanAny (fun p s => capVee1 p s || capVee2 p s || capVee3 s || capVee4 p s) none l

/-- One alternative of `\b(No\.|CRL|Crl\.O\.P|Crime No|C\.A\.|C\.C\.)\b`:
case-insensitive literal followed by the required word boundary. -/
def caseNoAltAt (prev : Option Char) (suf : List Char) : Bool :=
  (match prev with | none => true | some p => !(isWordChar p)) &&
  ([("No.", false), ("CRL", true), ("Crl.O.P", true), ("Crime No", true),
    ("C.A.", false), ("C.C.", false)].any (fun pr =>
      match dropCIPfx pr.1.data suf with
      | some rest => altBoundary pr.2 rest
      | none => false))

/-- Search for `\b(No\.|CRL|Crl\.O\.P|Crime No|C\.A\.|C\.C\.)\b` (re.I). -/
def caseNoSearch (l : List Char) : Bool :=
  scanAny caseNoAltAt none l

/-- `Segmenter._is_header_line`: short mostly-uppercase caption shapes,
explicit header markers, `v.` caption patterns, case-number shortforms. -/
def _is_header_line (line : String) : Bool :=
  let l := pyStripChars line.data
  if l.isEmpty then false
  else
    (decide (5 ≤ l.length) && decide (l.length ≤ 200) && l.all headerClassChar &&
      decide ((splitWsList l).length ≤ 12))
    || header_markers.any (fun m => findSubCI m.data l)
    || captionVee l
    || caseNoSearch l

/-- `Segmenter._looks_like_order_start`: the anchored order markers
`^\s*O R D E R\b`, `^\s*ORDER\b`, `^\s*Held:`, `^\s*DISPOSED\b`,
`^\s*CONCLUSION\b`, `^\s*JUDGMENT\b`, `^\s*TAKE NOTICE\b` (all `re.I`). -/
def _looks_like_order_start (s : String) : Bool :=
  let l := (s.data).dropWhile isPyWs
  (match dropCIPfx "O R D E R".data l with | some r => afterWordBoundary r | none => false)
  || (match dropCIPfx "ORDER".data l with | some r => afterWordBoundary r | none => false)
  || startsWithCI "Held:".data l
  || (match dropCIPfx "DISPOSED".data l with | some r => afterWordBoundary r | none => false)
  || (match dropCIPfx "CONCLUSION".data l with | some r => afterWordBoundary r | none => false)
  || (match dropCIPfx "JUDGMENT".data l with | some r => afterWordBoundary r | none => false)
  || (match dropCIPfx "TAKE NOTICE".data l with | some r => afterWordBoundary r | none => false)

/-- The header-to-body cue
`^\s*(Issue for Consideration|Issue|Background|Facts|Background and Facts|From the Judgment|Judgment|Heard)`
(`re.I`). -/
def bodyStartCue (s : String) : Bool :=
  let l := (s.data).dropWhile isPyWs
  ["Issue for Consideration", "Issue", "Background", "Facts",
   "Background and Facts", "From the Judgment", "Judgment", "Heard"].any
    (fun m => startsWithCI m.data l)

/-- The prose cue
`\b(is|are|was|were|held|observed|submitted|submitted that|observed that)\b`
(`re.I`); the two-word phrases are subsumed by their first word for the
boolean search. -/
def proseCue (s : String) : Bool :=
  scanAny (fun prev suf =>
    (match prev with | none => true | some p => !(isWordChar p)) &&
    (["is", "are", "was", "were", "held", "observed", "submitted"].any (fun w =>
      match dropCIPfx w.data suf with
      | some rest => afterWordBoundary rest
      | none => false))) none s.data

/-- State of the segmenter's line state machine. -/
inductive SegState | header | body | order
deriving DecidableEq, Repr

/-- The three output zones, as lists of (stripped) lines. -/
structure Segments where
  header : List String
  body : List String
  order : List String
deriving DecidableEq, Repr

/-- One iteration of the loop in `Segmenter.split_segments`: classify a
raw line and append it to the matching buffer. -/
def segStep (st : SegState) (h b o : List String) (raw : String) :
    SegState × List String × List String × List String :=
  if pyStrip raw = "" then
    -- preserve single blank lines in body
    if st = SegState.body ∧ b ≠ [] ∧ b.getLast? ≠ some "" then (st, h, b ++ [""], o)
    else (st, h, b, o)
  else
    match (if _looks_like_order_start (pyStrip raw) then SegState.order else st) with
    | SegState.header =>
      if bodyStartCue (pyStrip raw) || decide (h.length > 50) ||
          (!(_is_header_line (pyStrip raw)) && proseCue (pyStrip raw)) then
        (SegState.body, h, b ++ [pyStrip raw], o)
      else (SegState.header, h ++ [pyStrip raw], b, o)
    | SegState.body => (SegState.body, h, b ++ [pyStrip raw], o)
    | SegState.order => (SegState.order, h, b, o ++ [pyStrip raw])

/-- The full line loop of `Segmenter.split_segments`. -/
def segLoop : List String → SegState → List String → List String → List String →
    List String × List String × List String
  | [], _, h, b, o => (h, b, o)
  | raw :: rest, st, h, b, o =>
    match segStep st h b o raw with
    | (st', h', b', o') => segLoop rest st' h' b' o'

/-- Joining a buffer with newlines and calling `str.strip()` removes
exactly the blank entries at either edge (interior lines are already
stripped). -/
def stripBlankEdges (l : List String) : List String :=
  ((l.dropWhile (· = "")).reverse.dropWhile (· = "")).reverse

/-- The body re-split marker of the post-pass:
`(?:\n|^)(Held:|ORDER|O R D E R:|ORDER:)` (`re.I`, `re.S`) matches at a
line start whose text begins with one of the alternatives. -/
def heldOrderMarker (s : String) : Bool :=
  startsWithCI "Held:".data s.data || startsWithCI "ORDER".data s.data ||
  startsWithCI "O R D E R:".data s.data

/-- The post-pass of `Segmenter.split_segments`: when the order zone is
empty but the body is not, re-split the body at the first embedded
`Held:`/`ORDER` marker. -/
def postSplit (h b o : List String) : Segments :=
  if o = [] ∧ b ≠ [] then
    match b.findIdx? heldOrderMarker with
    | some i => { header := h, body := stripBlankEdges (b.take i),
                  order := stripBlankEdges (b.drop i) }
    | none => { header := h, body := b, order := o }
  else { header := h, body := b, order := o }

/-- `Segmenter.split_segments`: run the state machine, trim the joined
buffers, and apply the body re-split post-pass. -/
def split_segments (lines : List String) : Segments :=
  postSplit (stripBlankEdges (segLoop lines SegState.header [] [] []).1)
    (stripBlankEdges (segLoop lines SegState.header [] [] []).2.1)
    (stripBlankEdges (segLoop lines SegState.header [] [] []).2.2)

/-! ### The segmentation partition property -/

/-! ## String helpers shared by the fusion engine -/

/-- Python `str.lower()` (ASCII fragment). -/
def strLower (s : String) : String := String.mk (s.data.map Char.toLower)

/-- Python `str.upper()` (ASCII fragment). -/
def strUpper (s : String) : String := String.mk (s.data.map Char.toUpper)

/-- Python `str.isupper()`: at least one cased character and no lowercase
cased character (ASCII fragment). -/
def pyIsUpper (l : List Char) : Bool :=
  l.any (fun c => c.isAlpha) && l.all (fun c => !(c.isLower))

/-- Strip the characters of `bad` from both ends (Python `str.strip(bad)`). -/
def stripSet (bad : List Char) (l : List Char) : List Char :=
  ((l.dropWhile (fun c => bad.contains c)).reverse.dropWhile
    (fun c => bad.contains c)).reverse

/-- Collapsing-whitespace worker: `prevWs` records whether the previous
character was whitespace already replaced. -/
def collapseWsAux (prevWs : Bool) : List Char → List Char
  | [] => []
  | c :: cs =>
    if isPyWs c then
      if prevWs then collapseWsAux true cs else ' ' :: collapseWsAux true cs
    else c :: collapseWsAux false cs

/-- `re.sub(r'\s+', ' ', s)`: replace every whitespace run by one space. -/
def collapseWs (l : List Char) : List Char := collapseWsAux false l

/-- Case-sensitive literal prefix drop. -/
def dropCSPfx : List Char → List Char → Option (List Char)
  | [], l => some l
  | _ :: _, [] => none
  | p :: ps, c :: cs => if p == c then dropCSPfx ps cs else none

/-- Match a sequence of case-insensitive literals separated by `\s+`. -/
def matchSeqCI : List (List Char) → List Char → Option (List Char)
  | [], l => some l
  | [p], l => dropCIPfx p l
  | p :: ps, l =>
    match dropCIPfx p l with
    | some r =>
      match r with
      | c :: cs => if isPyWs c then matchSeqCI ps (cs.dropWhile isPyWs) else none
      | [] => none
    | none => none

/-- Search for `\bw\b` (case-insensitive) where `w` starts and ends with
word characters. -/
def hasWordCI (w : List Char) (l : List Char) : Bool :=
  scanAny (fun prev suf =>
    (match prev with | none => true | some p => !(isWordChar p)) &&
    (match dropCIPfx w suf with
     | some rest => afterWordBoundary rest
     | none => false)) none l

/-- Truncate the list at the first position where `f` fires
(`re.sub(pattern-to-end, '', s)` for patterns ending in `.*$`). -/
def truncAtPred (f : List Char → Bool) : List Char → List Char
  | [] => []
  | c :: cs => if f (c :: cs) then [] else c :: truncAtPred f cs

/-- Truncate at the first `\b`-delimited case-insensitive occurrence of a
word of `ws` (used for `re.split(...)[0]`). -/
def truncAtWordsCI (ws : List String) : Option Char → List Char → List Char
  | _, [] => []
  | prev, c :: cs =>
    if ((match prev with | none => true | some p => !(isWordChar p)) &&
        (ws.any (fun w => match dropCIPfx w.data (c :: cs) with
          | some rest => afterWordBoundary rest
          | none => false))) then []
    else c :: truncAtWordsCI ws (some c) cs

/-- Generic scanning `re.sub` driver: `pat prev suf` returns the suffix
after a match starting at `suf` (with `prev` the preceding character of
the original text), `repl` is the replacement.  Fuel bounds the number of
scanning steps; callers pass the input length, which suffices because
every pattern used consumes at least one character. -/
def replacePrevScan (pat : Option Char → List Char → Option (List Char))
    (repl : List Char) : Nat → Option Char → List Char → List Char
  | _, _, [] => []
  | 0, _, l => l
  | fuel + 1, prev, c :: cs =>
    match pat prev (c :: cs) with
    | some rest =>
      let consumed := (c :: cs).take ((c :: cs).length - rest.length)
      repl ++ replacePrevScan pat repl fuel
        (match consumed.getLast? with | some x => some x | none => prev) rest
    | none => c :: replacePrevScan pat repl fuel (some c) cs

/-- Word-boundary case-insensitive literal `\bpat\b` (for patterns
starting and ending with word characters), tested at one position. -/
def wordPatAt (pat : List Char) (prev : Option Char) (suf : List Char) :
    Option (List Char) :=
  if (match prev with | none => true | some p => !(isWordChar p)) then
    match dropCIPfx pat suf with
    | some rest => if afterWordBoundary rest then some rest else none
    | none => none
  else none

/-- Replace every case-insensitive `\bpat\b` occurrence by `repl`
(e.g. the statute abbreviation table of `_normalize_statute`). -/
def replaceWordCI (pat repl : List Char) (l : List Char) : List Char :=
  replacePrevScan (wordPatAt pat) repl l.length none l

/-! ## Fusion engine (`pipeline/postprocessing.py`) -/

/-- `_clean_whitespace`: collapse whitespace runs to single spaces, then
strip `' ,;:\n\t'` from both ends. -/
def _clean_whitespace (s : String) : String :=
  String.mk (stripSet [' ', ',', ';', ':', '\n', '\t'] (collapseWs s.data))

/-- `_normalize_statute`: strip, then expand the fixed abbreviation table
(word-boundary, case-insensitive substitutions, applied in sequence). -/
def _normalize_statute (s : String) : String :=
  let l0 := pyStripChars s.data
  let l1 := replaceWordCI "NI Act".data "Negotiable Instruments Act, 1881".data l0
  let l2 := replaceWordCI "CrPC".data "Code of Criminal Procedure, 1973".data l1
  let l3 := replaceWordCI "IPC".data "Indian Penal Code, 1860".data l2
  let l4 := replaceWordCI "IT Act".data "Information Technology Act, 2000".data l3
  let l5 := replaceWordCI "BNS".data "Bharatiya Nyaya Sanhita, 2023".data l4
  String.mk l5

/-- The rejection word list of `_is_probable_lawyer`. -/
def lawyerRejectWords : List String :=
  ["state", "government", "department", "commission", "bank", "society",
   "university", "corporation", "limited", "pvt", "ltd", "company", "union"]

/-- `_is_probable_lawyer`: at least two words, no organization/state word,
at least four characters. -/
def _is_probable_lawyer (name : String) : Bool :=
  if name.data.isEmpty then false
  else if decide ((splitWsList name.data).length < 2) then false
  else if lawyerRejectWords.any (fun w => hasWordCI w.data name.data) then false
  else if decide (name.data.length < 4) then false
  else true

/-- Leading court/section header of `_clean_party_name`:
`^(in the\s+supreme\s+court.*|before\s+the.*|civil\s+appellate\s+jurisdiction.*)`
(`re.I`); a match erases the whole string because of the trailing `.*`. -/
def courtHeaderAt (l : List Char) : Bool :=
  (matchSeqCI ["in the".data, "supreme".data, "court".data] l).isSome ||
  (matchSeqCI ["before".data, "the".data] l).isSome ||
  (matchSeqCI ["civil".data, "appellate".data, "jurisdiction".data] l).isSome

/-- The role words of `_clean_party_name`. -/
def roleWords : List String :=
  ["petitioner", "appellant", "respondent", "defendant", "plaintiff"]

/-- Leading `^(role)\s*[:\-]\s*` label of `_clean_party_name`. -/
def tryRoleLabel (l : List Char) : Option (List Char) :=
  (roleWords.filterMap (fun w =>
    match dropCIPfx w.data l with
    | some r =>
      (match r.dropWhile isPyWs with
       | c :: rest =>
         if c == ':' || c == '-' then some (rest.dropWhile isPyWs) else none
       | [] => none)
    | none => none)).head?

/-- Citation tail `\(?\d{4}\)?\s*(SCC|SCR|AIR|All ER).*` of
`_clean_party_name` (`re.I`), tested at one position. -/
def citationTailAt (suf : List Char) : Bool :=
  let s1 := match suf with | '(' :: r => r | _ => suf
  match s1 with
  | d1 :: d2 :: d3 :: d4 :: rest =>
    d1.isDigit && d2.isDigit && d3.isDigit && d4.isDigit &&
    (let s2 := match rest with | ')' :: r => r | _ => rest
     let s3 := s2.dropWhile isPyWs
     startsWithCI "SCC".data s3 || startsWithCI "SCR".data s3 ||
     startsWithCI "AIR".data s3 || startsWithCI "All ER".data s3)
  | _ => false

/-- Trailing `\b(role)\b$` strip of `_clean_party_name`. -/
def stripRoleSuffix (l : List Char) : List Char :=
  match (roleWords.filterMap (fun w =>
    match dropCIPfx w.data.reverse l.reverse with
    | some restRev =>
      (match restRev with
       | [] => some ([] : List Char)
       | c :: _ => if isWordChar c then none else some restRev.reverse)
    | none => none)).head? with
  | some r => r
  | none => l

/-- `_clean_party_name`: whitespace-clean, drop court headers and role
labels, truncate at citations and `represented by`-style trailers, drop a
trailing role word, finally strip `" ,;:-"`. -/
def _clean_party_name (name : String) : String :=
  let s := _clean_whitespace name
  let l0 := s.data
  let l1 := if courtHeaderAt l0 then [] else l0
  let l2 := match tryRoleLabel l1 with | some r => r | none => l1
  let l3 := truncAtPred citationTailAt l2
  let l4 := truncAtWordsCI ["represented by", "through", "filed", "under"] none l3
  let l5 := stripRoleSuffix l4
  String.mk (stripSet [' ', ',', ';', ':', '-'] l5)

/-- The label-to-key table of `_label_key`. -/
def labelKeyMap : List (String × String) :=
  [("CASE_NUMBER", "case_number"), ("CASE", "case_number"), ("COURT", "court"),
   ("DATE", "date"), ("JUDGE", "coram"), ("CORAM", "coram"),
   ("PETITIONER", "petitioner"), ("APPELLANT", "petitioner"),
   ("RESPONDENT", "respondent"), ("PRECEDENT", "precedent"),
   ("PRECEDENTS", "precedent"), ("PROVISION", "provision"),
   ("STATUTE", "statute"), ("LAWYER", "lawyer"), ("GPE", "gpe"),
   ("ORGANIZATION", "organization")]

/-- `_label_key`: map the uppercased label, defaulting to its lowercase. -/
def _label_key (label : String) : String :=
  match labelKeyMap.lookup (strUpper label) with
  | some k => k
  | none => strLower label

/-! ### Fuzzy deduplication of precedents (`difflib.SequenceMatcher`)

`SequenceMatcher.ratio` on short strings (no junk, no autojunk) is
`2 * M / (len a + len b)` where `M` sums the sizes of the recursively
chosen longest matching blocks, each block being the longest common
contiguous run, earliest in `a` then earliest in `b` on ties.  The
threshold test `ratio() > 0.85` is modelled exactly by the rational
comparison `40 * M > 17 * (len a + len b)`. -/

/-- Length of the common prefix run of two lists. -/
def commonRunLen : List Char → List Char → Nat
  | a :: as', b :: bs' => if a == b then commonRunLen as' bs' + 1 else 0
  | _, _ => 0

/-- Inner scan of `find_longest_match`: walk the suffixes of `b` at a
fixed suffix of `a`, keeping the first strictly-longest common run. -/
def flmInner (ad : List Char) (i : Nat) :
    List Char → Nat → Nat → Nat → Nat → Nat × Nat × Nat
  | [], _, bi, bj, bk => (bi, bj, bk)
  | c :: btl, j, bi, bj, bk =>
    let k := commonRunLen ad (c :: btl)
    if bk < k then flmInner ad i btl (j + 1) i j k
    else flmInner ad i btl (j + 1) bi bj bk

/-- Outer scan of `find_longest_match` over the suffixes of `a`. -/
def flmOuter (b : List Char) : List Char → Nat → Nat × Nat × Nat → Nat × Nat × Nat
  | [], _, best => best
  | c :: atl, i, best =>
    match flmInner (c :: atl) i b 0 best.1 best.2.1 best.2.2 with
    | (bi, bj, bk) => flmOuter b atl (i + 1) (bi, bj, bk)

/-- Longest matching block `(i, j, size)` of `find_longest_match` over
the whole of both sequences: first (in `i`-major, `j`-minor order)
strictly-longest common run. -/
def findLongestMatch (a b : List Char) : Nat × Nat × Nat :=
  flmOuter b a 0 (0, 0, 0)

/-- Total matched size over the recursive block decomposition of
`get_matching_blocks`; `fuel` dominates the recursion depth. -/
def matchTotal : Nat → List Char → List Char → Nat
  | 0, _, _ => 0
  | fuel + 1, a, b =>
    match findLongestMatch a b with
    | (i, j, k) =>
      if k = 0 then 0
      else k + matchTotal fuel (a.take i) (b.take j) +
        matchTotal fuel (a.drop (i + k)) (b.drop (j + k))

/-- Total matched characters of `SequenceMatcher(None, a, b)`. -/
def seqMatchTotal (a b : List Char) : Nat :=
  matchTotal (a.length + b.length + 1) a b

/-- The test `SequenceMatcher(None, a, b).ratio() > 0.85`. -/
def fuzzyOver85 (a b : List Char) : Bool :=
  decide (40 * seqMatchTotal a b > 17 * (a.length + b.length))

/-- Citation suffix `\s*\(\d{4}\).*$` of `_deduplicate_precedents`,
tested at one position. -/
def parenYearAt (suf : List Char) : Bool :=
  match suf.dropWhile isPyWs with
  | '(' :: d1 :: d2 :: d3 :: d4 :: ')' :: _ =>
    d1.isDigit && d2.isDigit && d3.isDigit && d4.isDigit
  | _ => false

/-- Reporter suffix `\s+(SCC|SCR|AIR).*$` of `_deduplicate_precedents`
(`re.I`), tested at one position. -/
def reporterTailAt (suf : List Char) : Bool :=
  match suf with
  | c :: cs =>
    isPyWs c &&
    (let s := cs.dropWhile isPyWs
     startsWithCI "SCC".data s || startsWithCI "SCR".data s ||
     startsWithCI "AIR".data s)
  | [] => false

/-- The "base name" of a precedent: strip a trailing `(year)…` citation,
then a trailing `SCC/SCR/AIR …` reporter suffix. -/
def precBase (prec : String) : String :=
  let b1 := pyStripChars (truncAtPred parenYearAt prec.data)
  let b2 := pyStripChars (truncAtPred reporterTailAt b1)
  String.mk b2

/-- First-occurrence deduplication (models building `set(precedents)`
from the accumulation order). -/
def dedupAux (seen : List String) : List String → List String
  | [] => []
  | x :: xs => if seen.contains x then dedupAux seen xs else x :: dedupAux (x :: seen) xs

/-- Stable insertion of a string into a list sorted by decreasing length. -/
def insertByLenDesc (x : String) : List String → List String
  | [] => [x]
  | y :: ys =>
    if y.data.length < x.data.length then x :: y :: ys else y :: insertByLenDesc x ys

/-- Stable sort by decreasing length
(`sorted(set(precedents), key=len, reverse=True)`). -/
def sortLenDesc : List String → List String
  | [] => []
  | x :: xs => insertByLenDesc x (sortLenDesc xs)

/-- Fuzzy-duplicate test of a lowercased base against the seen bases. -/
def isFuzzyDup (baseLower : String) (seenBases : List String) : Bool :=
  seenBases.any (fun seen => fuzzyOver85 baseLower.data seen.data)

/-- The main loop of `_deduplicate_precedents`: drop short bases, drop
fuzzy duplicates, remember kept bases. -/
def dedupPrecLoop (seenBases : List String) : List String → List String
  | [] => []
  | prec :: rest =>
    let base := precBase prec
    if decide (base.data.length < 10) then dedupPrecLoop seenBases rest
    else if isFuzzyDup (strLower base) seenBases then dedupPrecLoop seenBases rest
    else prec :: dedupPrecLoop (strLower base :: seenBases) rest

/-- `_deduplicate_precedents`: deduplicate exactly, sort by decreasing
length, run the fuzzy loop, truncate to 15 entries. -/
def _deduplicate_precedents (precedents : List String) : List String :=
  (dedupPrecLoop [] (sortLenDesc (dedupAux [] precedents))).take 15

/-! ### `merge_entities` -/

/-- Provenance-tag parse of step 1 of `merge_entities`:
`^(.*?)(?:\s*\[(header|body)\])?\s*$` splits a raw value into the value
text and an optional trailing `[header]`/`[body]` tag. -/
def splitProvTag (raw : String) : String × String :=
  let l := (raw.data.reverse.dropWhile isPyWs).reverse
  if "[header]".data.isSuffixOf l then
    (String.mk (((l.take (l.length - 8)).reverse.dropWhile isPyWs).reverse), "header")
  else if "[body]".data.isSuffixOf l then
    (String.mk (((l.take (l.length - 6)).reverse.dropWhile isPyWs).reverse), "body")
  else (String.mk l, "")

/-- One occurrence of `Hon['’]?\s*ble\.?\s*` (`re.I`). -/
def matchHonble (l : List Char) : Option (List Char) :=
  match dropCIPfx "Hon".data l with
  | none => none
  | some r1 =>
    let r2 := match r1 with
      | c :: rest => if c == '\'' || c == '’' then rest else r1
      | [] => r1
    match dropCIPfx "ble".data (r2.dropWhile isPyWs) with
    | none => none
    | some r4 =>
      let r5 := match r4 with | '.' :: rest => rest | _ => r4
      some (r5.dropWhile isPyWs)

/-- `\bMr\.?\s+Justice\b` (case-sensitive), tested at one position. -/
def mrJusticeAt (prev : Option Char) (suf : List Char) : Option (List Char) :=
  if !(match prev with | none => true | some p => !(isWordChar p)) then none
  else
    match dropCSPfx "Mr".data suf with
    | none => none
    | some r1 =>
      let r2 := match r1 with | '.' :: rest => rest | _ => r1
      match r2 with
      | c :: cs =>
        if isPyWs c then
          match dropCSPfx "Justice".data (cs.dropWhile isPyWs) with
          | some r3 => if afterWordBoundary r3 then some r3 else none
          | none => none
        else none
      | [] => none

/-- The judge pre-cleaning of step 1 of `merge_entities` for `coram`:
remove `Hon'ble` markers, rewrite `Mr. Justice` to `Justice`. -/
def coramPreClean (val : String) : String :=
  let l1 := replacePrevScan (fun _ suf => matchHonble suf) [] val.data.length none val.data
  String.mk (replacePrevScan mrJusticeAt "Justice".data l1.length none l1)

/-- Step 1 of `merge_entities`: one BERT `(label, raw)` pair to an
accumulator entry `(key, value, provenance)`. -/
def bertEntry (p : String × String) : Option (String × String × String) :=
  let lab := pyStrip (strUpper p.1)
  let vp := splitProvTag p.2
  let val := _clean_whitespace vp.1
  if val = "" then none
  else
    let key := _label_key lab
    let val := if key = "statute" then _normalize_statute val else val
    let val := if key = "coram" then coramPreClean val else val
    some (key, val, if vp.2 = "" then "bert" else vp.2)

/-- Step 2 of `merge_entities`: one spaCy/regex `(label, value)` pair to
an accumulator entry. -/
def spacyEntry (p : String × String) : Option (String × String × String) :=
  if p.2 = "" then none
  else
    let key := _label_key p.1
    let v := _clean_whitespace p.2
    let v := if key = "statute" then _normalize_statute v else v
    some (key, v, "spacy")

/-- Append an item under a key in an insertion-ordered association list
(`defaultdict(list)`). -/
def accumAdd (accum : List (String × List (String × String))) (key : String)
    (item : String × String) : List (String × List (String × String)) :=
  match accum with
  | [] => [(key, [item])]
  | (k, items) :: rest =>
    if k = key then (k, items ++ [item]) :: rest
    else (k, items) :: accumAdd rest key item

/-- Accumulate all entries in order. -/
def accumEntries (l : List (String × String × String)) :
    List (String × List (String × String)) :=
  l.foldl (fun acc e => accumAdd acc e.1 (e.2.1, e.2.2)) []

/-- The provenance bucket of step 3: `0` when `"header"` occurs in the
lowered provenance, `1` when it equals `"bert"`, `2` otherwise. -/
def bucketOf (prov : String) : Nat :=
  if findSubCI "header".data prov.data then 0
  else if strLower prov = "bert" then 1 else 2

/-- One lawyer-noise token of the step-3 lawyer cleaning:
`\b(Sr\.?\s*Adv|Advocate|Adv\.|A\.S\.G\.?|A\.A\.G\.?|AOR)\b` (`re.I`),
tested at one position (with the backtracking of the optional final
dots made explicit). -/
def lawyerTokenAt (prev : Option Char) (suf : List Char) : Option (List Char) :=
  if !(match prev with | none => true | some p => !(isWordChar p)) then none
  else
    (match dropCIPfx "Sr".data suf with
     | some r1 =>
       let r2 := match r1 with | '.' :: t => t | _ => r1
       match dropCIPfx "Adv".data (r2.dropWhile isPyWs) with
       | some r4 => if afterWordBoundary r4 then some r4 else none
       | none => none
     | none => none) <|>
    (match dropCIPfx "Advocate".data suf with
     | some r => if afterWordBoundary r then some r else none
     | none => none) <|>
    (match dropCIPfx "Adv.".data suf with
     | some r => (match r with
       | c :: _ => if isWordChar c then some r else none
       | [] => none)
     | none => none) <|>
    (match dropCIPfx "A.S.G".data suf with
     | some r =>
       (match r with
        | '.' :: t =>
          if (match t with | c :: _ => isWordChar c | [] => false) then some t
          else if afterWordBoundary r then some r else none
        | _ => if afterWordBoundary r then some r else none)
     | none => none) <|>
    (match dropCIPfx "A.A.G".data suf with
     | some r =>
       (match r with
        | '.' :: t =>
          if (match t with | c :: _ => isWordChar c | [] => false) then some t
          else if afterWordBoundary r then some r else none
        | _ => if afterWordBoundary r then some r else none)
     | none => none) <|>
    (match dropCIPfx "AOR".data suf with
     | some r => if afterWordBoundary r then some r else none
     | none => none)

/-- The per-value cleaning and per-label filters of step 3 of
`merge_entities`; returns `none` when the value is rejected. -/
def cleanStep (key : String) (v : String) : Option String :=
  if v = "" then none
  else
    let v2 := String.mk (stripSet ['.', ',', ';', ':'] (pyStripChars v.data))
    if key = "coram" then
      if strLower v2 = "and" || v2 = "&" || v2 = "-" then none
      else if (decide ((splitWsList v2.data).length = 1) &&
          !(findSubCI "justice".data v2.data)) &&
          !(v2.data.contains '.' || pyIsUpper v2.data) then none
      else
        some (String.mk (pyStripChars
          (match matchHonble v2.data with | some r => r | none => v2.data)))
    else if key = "petitioner" ∨ key = "respondent" then
      let v3 := _clean_party_name v2
      if v3 = "" ∨ decide ((splitWsList v3.data).length < 2) then none else some v3
    else if key = "organization" then
      if decide (3 ≤ v2.data.length) && decide (v2.data.length ≤ 200) &&
          v2.data.all (fun c => ('A' ≤ c && c ≤ 'Z') || isPyWs c) &&
          decide ((splitWsList v2.data).length > 2) then none
      else some v2
    else if key = "lawyer" then
      let v3 := pyStrip (String.mk
        (replacePrevScan lawyerTokenAt [] v2.data.length none v2.data))
      if _is_probable_lawyer v3 then some v3 else none
    else if key = "statute" then
      if decide (v2.data.length < 6) then none else some v2
    else if key = "precedent" then
      if decide (v2.data.length < 15) then none else some v2
    else some v2

/-- The clean-then-deduplicate fold of step 3: `seen` holds the lowered
text of kept values; returns the kept values and the final seen set. -/
def cleanFold (key : String) : List String → List String → List String × List String
  | seen, [] => ([], seen)
  | seen, v :: rest =>
    match cleanStep key v with
    | none => cleanFold key seen rest
    | some v2 =>
      if seen.contains (strLower v2) then cleanFold key seen rest
      else
        let r := cleanFold key (strLower v2 :: seen) rest
        (v2 :: r.1, r.2)

/-- Step 3 of `merge_entities` for one key: bucket by provenance in
priority order, run the precedent fuzzy deduplication, clean and
deduplicate. -/
def processKey (key : String) (items : List (String × String)) : List String :=
  let hs := (items.filter (fun it => bucketOf it.2 = 0)).map Prod.fst
  let bs := (items.filter (fun it => bucketOf it.2 = 1)).map Prod.fst
  let ss := (items.filter (fun it => bucketOf it.2 = 2)).map Prod.fst
  let combined := hs ++ bs ++ ss
  let combined2 := if key = "precedent" then _deduplicate_precedents combined else combined
  (cleanFold key [] combined2).1

/-- The values of one provenance bucket of step 3, in discovery order. -/
def bucketVals (items : List (String × String)) (n : Nat) : List String :=
  (items.filter (fun it => bucketOf it.2 = n)).map Prod.fst

/-- The expected-key list of step 4 of `merge_entities`. -/
def expectedKeys : List String :=
  ["case_number", "court", "date", "coram", "petitioner", "respondent",
   "lawyer", "precedent", "provision", "statute", "gpe", "organization"]

/-- Dictionary read with default `[]` (`final.get(k, [])`). -/
def getD (d : List (String × List String)) (k : String) : List String :=
  match d.lookup k with | some v => v | none => []

/-- Dictionary write: update in place when the key exists, else append
(Python dict assignment). -/
def setKey (d : List (String × List String)) (k : String) (v : List String) :
    List (String × List String) :=
  if (d.map Prod.fst).contains k then
    d.map (fun kv => if kv.1 = k then (k, v) else kv)
  else d ++ [(k, v)]

/-- Separator `\s+v[.]?s?[.]?\s+` (`re.I`) of
`_infer_parties_from_case_name`, tested at one position. -/
def versusSepPPAt (suf : List Char) : Option (List Char) :=
  match suf with
  | c :: cs =>
    if isPyWs c then
      match cs.dropWhile isPyWs with
      | v :: r2 =>
        if v == 'v' || v == 'V' then
          let r3 := match r2 with | '.' :: t => t | _ => r2
          let r4 := match r3 with
            | s :: t => if s == 's' || s == 'S' then t else r3
            | _ => r3
          let r5 := match r4 with | '.' :: t => t | _ => r4
          match r5 with
          | w :: r6 => if isPyWs w then some (r6.dropWhile isPyWs) else none
          | [] => none
        else none
      | [] => none
    else none
  | [] => none

/-- `re.split` driver: split at each leftmost separator match. -/
def splitAtSep (sep : List Char → Option (List Char)) :
    List Char → List Char → Nat → List (List Char)
  | acc, [], _ => [acc.reverse]
  | acc, c :: cs, 0 => [acc.reverse ++ c :: cs]
  | acc, c :: cs, fuel + 1 =>
    match sep (c :: cs) with
    | some rest => acc.reverse :: splitAtSep sep [] rest fuel
    | none => splitAtSep sep (c :: acc) cs fuel

/-- `_infer_parties_from_case_name`: split a case name at a
`v./vs.`-style separator into petitioner and respondent. -/
def _infer_parties_from_case_name (case_name : String) : Option (String × String) :=
  if case_name = "" then none
  else if !(findSubCI " v".data case_name.data) then none
  else
    match splitAtSep versusSepPPAt [] case_name.data case_name.data.length with
    | [a, b] => some (pyStrip (String.mk a), pyStrip (String.mk b))
    | _ => none

/-- `merge_entities`: accumulate both candidate streams, prioritize and
clean per label, pad the expected keys, add the compatibility extras, and
apply the party fallback. -/
def merge_entities (bert_ents_list spacy_regex_ents : List (String × String)) :
    List (String × List String) :=
  let entries := bert_ents_list.filterMap bertEntry ++
    spacy_regex_ents.filterMap spacyEntry
  let final0 := (accumEntries entries).map (fun kv => (kv.1, processKey kv.1 kv.2))
  let final1 := final0 ++
    (expectedKeys.filter (fun k => !((final0.map Prod.fst).contains k))).map
      (fun k => (k, ([] : List String)))
  let final2 := setKey final1 "extra_case_numbers"
    (if (getD final1 "case_number").length > 1 then (getD final1 "case_number").drop 1 else [])
  let final3 := setKey final2 "extra_courts"
    (if (getD final2 "court").length > 1 then (getD final2 "court").drop 1 else [])
  let final4 := setKey final3 "extra_dates"
    (if (getD final3 "date").length > 1 then (getD final3 "date").drop 1 else [])
  if getD final4 "petitioner" = [] ∧ getD final4 "respondent" = [] then
    match _infer_parties_from_case_name
        (match getD final4 "case_name" with | c :: _ => c | [] => "") with
    | some pr =>
      let fA := if pr.1 ≠ "" then
        setKey final4 "petitioner" (getD final4 "petitioner" ++ [pr.1]) else final4
      if pr.2 ≠ "" then
        setKey fA "respondent" (getD fA "respondent" ++ [pr.2]) else fA
    | none => final4
  else final4

/-! ## Primary-value selectors (`pipeline/selectors.py`) -/

/-- A Gregorian calendar date, modelling the date part of a Python
`datetime` (time components are always zero in this pipeline). -/
structure PyDate where
  y : Nat
  m : Nat
  d : Nat
deriving DecidableEq, Repr

/-- Datetime comparison key: lexicographic on (year, month, day). -/
def dateKey (dt : PyDate) : Nat := dt.y * 10000 + dt.m * 100 + dt.d

/-- Python `datetime` order `a <= b`. -/
def dateLe (a b : PyDate) : Bool := decide (dateKey a ≤ dateKey b)

/-- Gregorian leap year. -/
def isLeap (y : Nat) : Bool :=
  y % 4 = 0 && (y % 100 ≠ 0 || y % 400 = 0)

/-- Days in a month. -/
def daysInMonth (y m : Nat) : Nat :=
  if m = 2 then (if isLeap y then 29 else 28)
  else if m = 4 ∨ m = 6 ∨ m = 9 ∨ m = 11 then 30
  else 31

/-- Construct a date, enforcing the calendar validation that
`datetime.date` performs (`ValueError` on invalid dates maps to `none`). -/
def mkValidDate (y m d : Nat) : Option PyDate :=
  if 1 ≤ y ∧ 1 ≤ d ∧ d ≤ daysInMonth y m then some ⟨y, m, d⟩ else none

/-- Numeric value of a decimal digit. -/
def digitVal (c : Char) : Nat := c.toNat - '0'.toNat

/-- The `%d` token of `strptime`: regex `3[01]|[12]\d|0[1-9]|[1-9]`.
Two-digit forms are preferred; with the separators used by this
pipeline's formats (all non-digits) the greedy choice is exact. -/
def parseDayTok : List Char → Option (Nat × List Char)
  | c1 :: c2 :: rest =>
    if c1 == '3' && (c2 == '0' || c2 == '1') then some (30 + digitVal c2, rest)
    else if (c1 == '1' || c1 == '2') && c2.isDigit then
      some (10 * digitVal c1 + digitVal c2, rest)
    else if c1 == '0' && ('1' ≤ c2 && c2 ≤ '9') then some (digitVal c2, rest)
    else if '1' ≤ c1 && c1 ≤ '9' then some (digitVal c1, c2 :: rest)
    else none
  | [c1] => if '1' ≤ c1 && c1 ≤ '9' then some (digitVal c1, []) else none
  | [] => none

/-- The `%m` token of `strptime`: regex `1[0-2]|0[1-9]|[1-9]`. -/
def parseMonTok : List Char → Option (Nat × List Char)
  | c1 :: c2 :: rest =>
    if c1 == '1' && ('0' ≤ c2 && c2 ≤ '2') then some (10 + digitVal c2, rest)
    else if c1 == '0' && ('1' ≤ c2 && c2 ≤ '9') then some (digitVal c2, rest)
    else if '1' ≤ c1 && c1 ≤ '9' then some (digitVal c1, c2 :: rest)
    else none
  | [c1] => if '1' ≤ c1 && c1 ≤ '9' then some (digitVal c1, []) else none
  | [] => none

/-- The `%Y` token of `strptime`: exactly four digits. -/
def parseY4 : List Char → Option (Nat × List Char)
  | a :: b :: c :: d :: rest =>
    if a.isDigit && b.isDigit && c.isDigit && d.isDigit then
      some (1000 * digitVal a + 100 * digitVal b + 10 * digitVal c + digitVal d, rest)
    else none
  | _ => none

/-- The `%y` token of `strptime`: two digits, pivoting at 69. -/
def parseY2 : List Char → Option (Nat × List Char)
  | a :: b :: rest =>
    if a.isDigit && b.isDigit then
      let v := 10 * digitVal a + digitVal b
      some ((if v ≤ 68 then 2000 + v else 1900 + v), rest)
    else none
  | _ => none

/-- Literal whitespace in a `strptime` format matches `\s+`. -/
def parseWsp : List Char → Option (List Char)
  | c :: cs => if isPyWs c then some (cs.dropWhile isPyWs) else none
  | [] => none

/-- A literal character of a `strptime` format. -/
def parseLit (x : Char) : List Char → Option (List Char)
  | c :: cs => if c == x then some cs else none
  | [] => none

/-- The month-name tables of `strptime` (`%B` and `%b`, matched
case-insensitively). -/
def monthNamesFull : List (String × Nat) :=
  [("January", 1), ("February", 2), ("March", 3), ("April", 4), ("May", 5),
   ("June", 6), ("July", 7), ("August", 8), ("September", 9), ("October", 10),
   ("November", 11), ("December", 12)]

/-- Abbreviated month names for `%b`. -/
def monthAbbrevs : List (String × Nat) :=
  [("Jan", 1), ("Feb", 2), ("Mar", 3), ("Apr", 4), ("May", 5), ("Jun", 6),
   ("Jul", 7), ("Aug", 8), ("Sep", 9), ("Oct", 10), ("Nov", 11), ("Dec", 12)]

/-- Match a month-name token as a prefix (case-insensitive). -/
def parseMonthTok (names : List (String × Nat)) (l : List Char) :
    Option (Nat × List Char) :=
  (names.filterMap (fun nm =>
    match dropCIPfx nm.1.data l with
    | some r => some (nm.2, r)
    | none => none)).head?

/-- Formats `%d %B %Y` / `%d %b %Y` (and, with `comma = true`,
`%d %B, %Y` / `%d %b, %Y`). -/
def tryFmtMonthName (names : List (String × Nat)) (comma : Bool) (l : List Char) :
    Option PyDate := do
  let (d, r1) ← parseDayTok l
  let r2 ← parseWsp r1
  let (m, r3) ← parseMonthTok names r2
  let r4 ← (if comma then parseLit ',' r3 else some r3)
  let r5 ← parseWsp r4
  let (y, r6) ← parseY4 r5
  if r6.isEmpty then mkValidDate y m d else none

/-- Formats `%d<sep>%m<sep>%Y` for a separator character. -/
def tryFmtNumSep (sep : Char) (l : List Char) : Option PyDate := do
  let (d, r1) ← parseDayTok l
  let r2 ← parseLit sep r1
  let (m, r3) ← parseMonTok r2
  let r4 ← parseLit sep r3
  let (y, r5) ← parseY4 r4
  if r5.isEmpty then mkValidDate y m d else none

/-- Format `%d %m %Y`. -/
def tryFmtNumWs (l : List Char) : Option PyDate := do
  let (d, r1) ← parseDayTok l
  let r2 ← parseWsp r1
  let (m, r3) ← parseMonTok r2
  let r4 ← parseWsp r3
  let (y, r5) ← parseY4 r4
  if r5.isEmpty then mkValidDate y m d else none

/-- Formats `%d<sep>%m<sep>%y` (two-digit year). -/
def tryFmtNumSepY2 (sep : Char) (l : List Char) : Option PyDate := do
  let (d, r1) ← parseDayTok l
  let r2 ← parseLit sep r1
  let (m, r3) ← parseMonTok r2
  let r4 ← parseLit sep r3
  let (y, r5) ← parseY2 r4
  if r5.isEmpty then mkValidDate y m d else none

/-- Ordinal-suffix pair of `(\d)(st|nd|rd|th)\b`. -/
def isOrdPair (a b : Char) : Bool :=
  (a.toLower == 's' && b.toLower == 't') || (a.toLower == 'n' && b.toLower == 'd') ||
  (a.toLower == 'r' && b.toLower == 'd') || (a.toLower == 't' && b.toLower == 'h')

/-- `re.sub(r'(\d)(st|nd|rd|th)\b', r'\1', s, flags=re.I)`. -/
def stripOrdinals : List Char → List Char
  | c :: a :: b :: rest =>
    if c.isDigit && isOrdPair a b && afterWordBoundary rest then c :: stripOrdinals rest
    else c :: stripOrdinals (a :: b :: rest)
  | l => l

/-- After the day digits of the fallback regex
`(\d{1,2})\s+([A-Za-z]{3,9})\s+(\d{4})`: whitespace, a 3–9 letter run,
whitespace, four digits. -/
def fbAfterDay (d : Nat) (rest : List Char) : Option (Nat × List Char × Nat) :=
  match rest with
  | c :: cs =>
    if isPyWs c then
      let afterWs := cs.dropWhile isPyWs
      let letters := afterWs.takeWhile (fun x => x.isAlpha)
      let rest2 := afterWs.dropWhile (fun x => x.isAlpha)
      if decide (3 ≤ letters.length) && decide (letters.length ≤ 9) then
        match rest2 with
        | w :: ws =>
          if isPyWs w then
            match ws.dropWhile isPyWs with
            | y1 :: y2 :: y3 :: y4 :: _ =>
              if y1.isDigit && y2.isDigit && y3.isDigit && y4.isDigit then
                some (d, letters,
                  1000 * digitVal y1 + 100 * digitVal y2 + 10 * digitVal y3 + digitVal y4)
              else none
            | _ => none
          else none
        | [] => none
      else none
    else none
  | [] => none

/-- The fallback regex tested at one position (two-digit day preferred,
with the one-digit backtracking alternative). -/
def fbMatchAt (suf : List Char) : Option (Nat × List Char × Nat) :=
  match suf with
  | c1 :: rest1 =>
    if c1.isDigit then
      match rest1 with
      | c2 :: rest2 =>
        if c2.isDigit then
          fbAfterDay (10 * digitVal c1 + digitVal c2) rest2 <|>
            fbAfterDay (digitVal c1) rest1
        else fbAfterDay (digitVal c1) rest1
      | [] => none
    else none
  | [] => none

/-- Leftmost search for the fallback regex. -/
def fbSearch : List Char → Option (Nat × List Char × Nat)
  | [] => none
  | c :: cs =>
    match fbMatchAt (c :: cs) with
    | some r => some r
    | none => fbSearch cs

/-- Case-insensitive month-name equality lookup (the reconstructed
string `f"{d} {mon} {y}"` must match `%B` or `%b` exactly). -/
def monthEqLookup (names : List (String × Nat)) (mon : List Char) : Option Nat :=
  (names.filterMap (fun nm =>
    if nm.1.data.map Char.toLower = mon.map Char.toLower then some nm.2 else none)).head?

/-- The fallback branch of `_try_parse_date`: regex search then
`%d %B %Y` / `%d %b %Y` on the reconstructed string.  The reconstruction
`f"{d} {mon} {y}"` loses leading zeros, so the day must be 1–31 and the
year at least 1000 to re-match. -/
def fallbackParse (t : List Char) : Option PyDate :=
  match fbSearch t with
  | none => none
  | some (d, mon, y) =>
    if decide (1 ≤ d) && decide (d ≤ 31) && decide (1000 ≤ y) then
      match monthEqLookup monthNamesFull mon <|> monthEqLookup monthAbbrevs mon with
      | some m => mkValidDate y m d
      | none => none
    else none

/-- `_try_parse_date`: strip, remove ordinal suffixes, try the fixed
format list in order, then the fallback regex. -/
def _try_parse_date (s : String) : Option PyDate :=
  let t0 := pyStripChars s.data
  if t0.isEmpty then none
  else
    let t := stripOrdinals t0
    tryFmtMonthName monthNamesFull false t <|>
    tryFmtMonthName monthAbbrevs false t <|>
    tryFmtNumSep '.' t <|>
    tryFmtNumSep '/' t <|>
    tryFmtNumSep '-' t <|>
    tryFmtMonthName monthNamesFull true t <|>
    tryFmtMonthName monthAbbrevs true t <|>
    tryFmtNumWs t <|>
    tryFmtNumSepY2 '.' t <|>
    tryFmtNumSepY2 '/' t <|>
    tryFmtNumSepY2 '-' t <|>
    fallbackParse t

/-- The candidate pre-pass of `select_primary_date`: strip, drop blanks,
deduplicate case-insensitively keeping first occurrences. -/
def candLoop (seen : List String) : List String → List String
  | [] => []
  | d :: rest =>
    let d2 := pyStrip d
    if d2 = "" then candLoop seen rest
    else if seen.contains (strLower d2) then candLoop seen rest
    else d2 :: candLoop (strLower d2 :: seen) rest

/-- Python `max(xs, key=...)`: first maximal element. -/
def maxByDate : List (String × PyDate) → Option (String × PyDate)
  | [] => none
  | x :: xs =>
    some (xs.foldl (fun best c => if dateKey best.2 < dateKey c.2 then c else best) x)

/-- The `valid` list of `select_primary_date`: candidates that parse and
whose parsed date is not after `now`, paired with the parsed date. -/
def validDates (candidates : List String) (now : PyDate) : List (String × PyDate) :=
  candidates.filterMap (fun d =>
    match _try_parse_date d with
    | some dt => if dateLe dt now then some (d, dt) else none
    | none => none)

/-- `select_primary_date`: header-verbatim preference, then latest parsed
date not in the future of `now` (`datetime.now()` is passed explicitly),
then the first candidate. -/
def select_primary_date (dates : List String) (header_text : Option String)
    (now : PyDate) : Option String :=
  if dates = [] then none
  else
    let candidates := candLoop [] dates
    match (match header_text with
           | some h =>
             if h ≠ "" then
               candidates.find? (fun d => findSubCI d.data h.data)
             else none
           | none => none) with
    | some d => some d
    | none =>
      let valid := validDates candidates now
      match maxByDate valid with
      | some p => some p.1
      | none => candidates.head?

/-- The priority substring list of `select_primary_case_number`. -/
def cnPriorities : List String :=
  ["appeal", "crl", "crl.o.p", "w.p.", "c.a.", "c.c.", "crime no", "rcc",
   "case no", "civil appeal", "civil ap"]

/-- The dedup pre-pass of `select_primary_case_number` (key: collapsed,
lowered text; kept value: stripped text). -/
def cnDedup (seen : List String) : List String → List String
  | [] => []
  | c :: rest =>
    let c2 := pyStrip c
    let key := strLower (String.mk (collapseWs c2.data))
    if seen.contains key then cnDedup seen rest
    else c2 :: cnDedup (key :: seen) rest

/-- Python `max(xs, key=len)`: first longest element. -/
def maxByLen : List String → Option String
  | [] => none
  | x :: xs =>
    some (xs.foldl (fun best c => if best.data.length < c.data.length then c else best) x)

/-- `select_primary_case_number`: dedup, then first candidate containing
a priority substring (in priority order), else the longest candidate. -/
def select_primary_case_number (case_numbers : List String) : Option String :=
  if case_numbers = [] then none
  else
    let cleaned := cnDedup [] case_numbers
    match (cnPriorities.filterMap (fun p =>
        cleaned.find? (fun c => findSubCI p.data c.data))).head? with
    | some c => some c
    | none => maxByLen cleaned

/-- The dedup pre-pass of `select_primary_court`. -/
def courtDedup (seen : List String) : List String → List String
  | [] => []
  | c :: rest =>
    if c = "" then courtDedup seen rest
    else
      let c2 := String.mk (collapseWs (pyStripChars c.data))
      if seen.contains (strLower c2) then courtDedup seen rest
      else c2 :: courtDedup (strLower c2 :: seen) rest

/-- The authority score of `select_primary_court`. -/
def courtScore (name : String) : Nat :=
  let n := name.data
  if findSubCI "supreme court of india".data n || findSubCI "supreme court".data n then 100
  else if findSubCI "high court of judicature".data n ||
    scanAny (fun _ suf => match dropCIPfx "high court of".data suf with
      | some r => afterWordBoundary r
      | none => false) none n then 80
  else if findSubCI "high court".data n then 70
  else if findSubCI "district court".data n then 40
  else if findSubCI "judicial magistrate".data n then 30
  else 10

/-- Python `max(xs, key=score)`: first maximal element. -/
def maxByScore : List String → Option String
  | [] => none
  | x :: xs =>
    some (xs.foldl (fun best c => if courtScore best < courtScore c then c else best) x)

/-- `select_primary_court`: dedup, take the max-scoring candidate, apply
the two cosmetic title-casing substitutions.  On a list whose entries are
all empty the Python source raises `ValueError` (`max` of an empty
sequence); the model returns `none` there. -/
def select_primary_court (courts : List String) : Option String :=
  if courts = [] then none
  else
    match maxByScore (courtDedup [] courts) with
    | none => none
    | some best =>
      let b1 := replaceWordCI "SUPREME COURT OF INDIA".data
        "Supreme Court of India".data best.data
      let b2 := replaceWordCI "HIGH COURT OF JUDICATURE AT".data
        "High Court of".data b1
      some (pyStrip (String.mk b2))

/-- Separator `\s+[Vv][Ss]?\.?\s+` of `normalize_case_name`, tested at
one position. -/
def vsSepNormAt (suf : List Char) : Option (List Char) :=
  match suf with
  | c :: cs =>
    if isPyWs c then
      match cs.dropWhile isPyWs with
      | v :: r2 =>
        if v == 'v' || v == 'V' then
          let r3 := match r2 with
            | s :: t => if s == 's' || s == 'S' then t else r2
            | _ => r2
          let r4 := match r3 with | '.' :: t => t | _ => r3
          match r4 with
          | w :: r5 => if isPyWs w then some (r5.dropWhile isPyWs) else none
          | [] => none
        else none
      | [] => none
    else none
  | [] => none

/-- `re.sub(r'\s+v\.?\s*$', '', name)`: remove a hanging trailing `v.`. -/
def stripTrailingVee (l : List Char) : List Char :=
  let r1 := l.reverse.dropWhile isPyWs
  let r2 := match r1 with | '.' :: t => t | _ => r1
  match r2 with
  | 'v' :: t =>
    (match t with
     | c :: _ => if isPyWs c then (t.dropWhile isPyWs).reverse else l
     | [] => l)
  | _ => l

/-- `normalize_case_name`: standardize `v.` separators, drop a hanging
trailing `v.`, collapse whitespace, capitalize the first character. -/
def normalize_case_name (name : Option String) : Option String :=
  match name with
  | none => none
  | some nm =>
    if nm = "" then none
    else
      let l1 := replacePrevScan (fun _ s => vsSepNormAt s) " v. ".data
        nm.data.length none nm.data
      let l2 := stripTrailingVee l1
      let l3 := pyStripChars (collapseWs l2)
      match l3 with
      | [] => none
      | c :: rest => some (String.mk (c.toUpper :: rest))

/-- `make_case_name`: join the party lists with `", "` and combine with
`" v. "`; empty sides degrade to the other side or `None`. -/
def make_case_name (appellants respondents : List String) : Option String :=
  let left := String.intercalate ", " appellants
  let right := String.intercalate ", " respondents
  if left ≠ "" ∧ right ≠ "" then some (left ++ " v. " ++ right)
  else if left ≠ "" then some left
  else if right ≠ "" then some right
  else none

/-! ## Party extractor (`pipeline/party_extractor.py`) -/

/-- Optional trailing dot followed by `\b`: with the dot the next
character must be a word character; without it (backtracking) the
pattern ends in a word character, so the boundary needs a non-word
successor or the end. -/
def optDotBoundary (r : List Char) : Option (List Char) :=
  match r with
  | '.' :: t =>
    if (match t with | c :: _ => isWordChar c | [] => false) then some t
    else if afterWordBoundary r then some r else none
  | _ => if afterWordBoundary r then some r else none

/-- Backtracking alternatives of `[Ss]?` (greedy first). -/
def optS (l : List Char) : List (List Char) :=
  match l with
  | c :: t => if c == 's' || c == 'S' then [t, l] else [l]
  | [] => [l]

/-- Backtracking alternatives of `\.?` (greedy first). -/
def optDot (l : List Char) : List (List Char) :=
  match l with
  | '.' :: t => [t, l]
  | _ => [l]

/-- Noise suffixes `\b(?:&\s*Anr\.?|&\s*Ors\.?|and\s+Another|and\s+Others)\b`
(`re.I`) of `_clean_party_chunk`, tested at one position.  The leading
`\b` before `&` requires a word character on the left; before `and` it
requires a non-word character. -/
def anrNoiseAt (prev : Option Char) (suf : List Char) : Option (List Char) :=
  let prevWord := match prev with | some p => isWordChar p | none => false
  (if prevWord then
    (match suf with
     | '&' :: r1 =>
       let r2 := r1.dropWhile isPyWs
       (match dropCIPfx "Anr".data r2 with
        | some r3 => optDotBoundary r3
        | none => none) <|>
       (match dropCIPfx "Ors".data r2 with
        | some r3 => optDotBoundary r3
        | none => none)
     | _ => none)
   else none) <|>
  (if !prevWord then
    (match dropCIPfx "and".data suf with
     | some r1 =>
       (match r1 with
        | c :: cs =>
          if isPyWs c then
            (let r2 := cs.dropWhile isPyWs
             (match dropCIPfx "Another".data r2 with
              | some r3 => if afterWordBoundary r3 then some r3 else none
              | none => none) <|>
             (match dropCIPfx "Others".data r2 with
              | some r3 => if afterWordBoundary r3 then some r3 else none
              | none => none))
          else none
        | [] => none)
     | none => none)
   else none)

/-- Replacement driver for patterns of the form `ANCHOR.*$` without
`re.S`/`re.M`: a fired anchor erases to the end only when the remaining
text holds no newline (or just one final newline, which `$` skips and
the substitution keeps). -/
def subToLineEnd (m : Option Char → List Char → Option (List Char)) :
    Option Char → List Char → List Char
  | _, [] => []
  | prev, c :: cs =>
    match m prev (c :: cs) with
    | some after =>
      if !(after.contains '\n') then []
      else if after.getLast? = some '\n' && !(after.dropLast.contains '\n') then ['\n']
      else c :: subToLineEnd m (some c) cs
    | none => c :: subToLineEnd m (some c) cs

/-- `\b(?:Petitioner|Appellant|Respondent|Defendant)\b` (`re.I`). -/
def roleMarkAt (prev : Option Char) (suf : List Char) : Option (List Char) :=
  if (match prev with | some p => isWordChar p | none => false) then none
  else
    match (["Petitioner", "Appellant", "Respondent", "Defendant"].filterMap
        (fun w => dropCIPfx w.data suf)).head? with
    | some r => if afterWordBoundary r then some r else none
    | none => none

/-- Numeric date pattern of `_clean_party_chunk`: one or two digits, a
separator (dot, slash or dash), one or two digits, a separator, two to
four digits, surrounded by word boundaries; tested at one position. -/
def numDateAt (prev : Option Char) (suf : List Char) : Option (List Char) :=
  if (match prev with | some p => isWordChar p | none => false) then none
  else
    let d1 := suf.takeWhile Char.isDigit
    let r1 := suf.dropWhile Char.isDigit
    if d1.length = 0 ∨ d1.length > 2 then none
    else
      match r1 with
      | s1 :: r2 =>
        if s1 == '.' || s1 == '/' || s1 == '-' then
          let d2 := r2.takeWhile Char.isDigit
          let r3 := r2.dropWhile Char.isDigit
          if d2.length = 0 ∨ d2.length > 2 then none
          else
            match r3 with
            | s2 :: r4 =>
              if s2 == '.' || s2 == '/' || s2 == '-' then
                let d3 := r4.takeWhile Char.isDigit
                let r5 := r4.dropWhile Char.isDigit
                if decide (2 ≤ d3.length) && decide (d3.length ≤ 4) &&
                    afterWordBoundary r5 then some r5 else none
              else none
            | [] => none
        else none
      | [] => none

/-- Month-name date
`\b\d{1,2}\s+(?:Jan|Feb|Mar|Apr|May|Jun|Jul|Aug|Sep|Oct|Nov|Dec)[a-z]*\s+\d{4}\b`
(`re.I`), tested at one position. -/
def monthDateAt (prev : Option Char) (suf : List Char) : Option (List Char) :=
  if (match prev with | some p => isWordChar p | none => false) then none
  else
    let d1 := suf.takeWhile Char.isDigit
    let r1 := suf.dropWhile Char.isDigit
    if d1.length = 0 ∨ d1.length > 2 then none
    else
      match r1 with
      | c :: cs =>
        if isPyWs c then
          match (monthAbbrevs.filterMap (fun nm =>
              dropCIPfx nm.1.data (cs.dropWhile isPyWs))).head? with
          | some r3 =>
            let r4 := r3.dropWhile (fun x => x.isAlpha)
            (match r4 with
             | w :: ws2 =>
               if isPyWs w then
                 let r5 := ws2.dropWhile isPyWs
                 if decide ((r5.takeWhile Char.isDigit).length = 4) &&
                     afterWordBoundary (r5.dropWhile Char.isDigit) then
                   some (r5.dropWhile Char.isDigit)
                 else none
               else none
             | [] => none)
          | none => none
        else none
      | [] => none

/-- `\[\d{4}\]`, tested at one position. -/
def bracketYearAt (suf : List Char) : Option (List Char) :=
  match suf with
  | '[' :: a :: b :: c :: d :: ']' :: rest =>
    if a.isDigit && b.isDigit && c.isDigit && d.isDigit then some rest else none
  | _ => none

/-- `\(\d{4}\)`, tested at one position. -/
def parenYearPlainAt (suf : List Char) : Option (List Char) :=
  match suf with
  | '(' :: a :: b :: c :: d :: ')' :: rest =>
    if a.isDigit && b.isDigit && c.isDigit && d.isDigit then some rest else none
  | _ => none

/-- `\b(?:SCC|SCR|INSC|AIR)\s+\d+` (`re.I`), tested at one position. -/
def reporterNumAt (prev : Option Char) (suf : List Char) : Option (List Char) :=
  if (match prev with | some p => isWordChar p | none => false) then none
  else
    match (["SCC", "SCR", "INSC", "AIR"].filterMap
        (fun w => dropCIPfx w.data suf)).head? with
    | some r1 =>
      (match r1 with
       | c :: cs =>
         if isPyWs c then
           let r2 := cs.dropWhile isPyWs
           let ds := r2.takeWhile Char.isDigit
           if ds.isEmpty then none else some (r2.dropWhile Char.isDigit)
         else none
       | [] => none)
    | none => none

/-- `\bNo\.?\s*\d+` (`re.I`), tested at one position. -/
def noNumAt (prev : Option Char) (suf : List Char) : Option (List Char) :=
  if (match prev with | some p => isWordChar p | none => false) then none
  else
    match dropCIPfx "No".data suf with
    | some r1 =>
      let r2 := match r1 with | '.' :: t => t | _ => r1
      let r3 := r2.dropWhile isPyWs
      let ds := r3.takeWhile Char.isDigit
      if ds.isEmpty then none else some (r3.dropWhile Char.isDigit)
    | none => none

/-- `\bCriminal\s+Appeal\b` (`re.I`), tested at one position. -/
def criminalAppealAt (prev : Option Char) (suf : List Char) : Option (List Char) :=
  if (match prev with | some p => isWordChar p | none => false) then none
  else
    match dropCIPfx "Criminal".data suf with
    | some r1 =>
      (match r1 with
       | c :: cs =>
         if isPyWs c then
           match dropCIPfx "Appeal".data (cs.dropWhile isPyWs) with
           | some r2 => if afterWordBoundary r2 then some r2 else none
           | none => none
         else none
       | [] => none)
    | none => none

/-- `\bCrl\.?O\.?P\.?\b` (`re.I`), tested at one position. -/
def crlOPAt (prev : Option Char) (suf : List Char) : Option (List Char) :=
  if (match prev with | some p => isWordChar p | none => false) then none
  else
    match dropCIPfx "Crl".data suf with
    | some r1 =>
      let r2 := match r1 with | '.' :: t => t | _ => r1
      match dropCIPfx "O".data r2 with
      | some r3 =>
        let r4 := match r3 with | '.' :: t => t | _ => r3
        match dropCIPfx "P".data r4 with
        | some r5 => optDotBoundary r5
        | none => none
      | none => none
    | none => none

/-- `\bRep(?:resented)?\.?\s+by\b` (`re.I`), tested at one position. -/
def repByAt (prev : Option Char) (suf : List Char) : Option (List Char) :=
  if (match prev with | some p => isWordChar p | none => false) then none
  else
    match dropCIPfx "Rep".data suf with
    | some r1 =>
      let tryTail : List Char → Option (List Char) := fun r =>
        let r' := match r with | '.' :: t => t | _ => r
        match r' with
        | c :: cs =>
          if isPyWs c then
            match dropCIPfx "by".data (cs.dropWhile isPyWs) with
            | some r2 => if afterWordBoundary r2 then some r2 else none
            | none => none
          else none
        | [] => none
      (match dropCIPfx "resented".data r1 with
       | some rFull => tryTail rFull
       | none => none) <|> tryTail r1
    | none => none

/-- `\bThrough\b` (`re.I`), tested at one position. -/
def throughAt (prev : Option Char) (suf : List Char) : Option (List Char) :=
  if (match prev with | some p => isWordChar p | none => false) then none
  else
    match dropCIPfx "Through".data suf with
    | some r => if afterWordBoundary r then some r else none
    | none => none

/-- `re.sub(r'\s+(?:in|of|the|at|to)\s*$', '', chunk, flags=re.I)`. -/
def stripTrailingPrep (l : List Char) : List Char :=
  let r1 := l.reverse.dropWhile isPyWs
  match (["in", "of", "the", "at", "to"].filterMap (fun w =>
    match dropCIPfx w.data.reverse r1 with
    | some r2 =>
      (match r2 with
       | c :: _ => if isPyWs c then some ((r2.dropWhile isPyWs).reverse) else none
       | [] => none)
    | none => none)).head? with
  | some r => r
  | none => l

/-- `party_extractor._clean_party_chunk`: the ordered substitution
cascade removing suffix noise, role markers, dates, citations, case
numbers and trailers from a candidate party name. -/
def _clean_party_chunk (chunk : String) : String :=
  if chunk = "" then ""
  else
    let l0 := chunk.data
    let l1 := replacePrevScan anrNoiseAt [] l0.length none l0
    let l2 := subToLineEnd roleMarkAt none l1
    let l3 := replacePrevScan numDateAt [] l2.length none l2
    let l4 := replacePrevScan monthDateAt [] l3.length none l3
    let l5 := replacePrevScan (fun _ s => bracketYearAt s) [] l4.length none l4
    let l6 := replacePrevScan (fun _ s => parenYearPlainAt s) [] l5.length none l5
    let l7 := replacePrevScan reporterNumAt [] l6.length none l6
    let l8 := replacePrevScan noNumAt [] l7.length none l7
    let l9 := subToLineEnd criminalAppealAt none l8
    let l10 := subToLineEnd crlOPAt none l9
    let l11 := subToLineEnd repByAt none l10
    let l12 := subToLineEnd throughAt none l11
    let l13 := stripTrailingPrep l12
    String.mk (stripSet [' ', '.', ',', ';', ':', '-'] (collapseWs l13))

/-- Name delimiter `\s*(?:,|;|\band\b|\&)\s*` of
`_extract_names_from_block`, tested at one position. -/
def nameDelimAt (prev : Option Char) (suf : List Char) : Option (List Char) :=
  let ws := suf.takeWhile isPyWs
  let r1 := suf.dropWhile isPyWs
  let prevC := if ws.isEmpty then prev else some ' '
  match r1 with
  | ',' :: t => some (t.dropWhile isPyWs)
  | ';' :: t => some (t.dropWhile isPyWs)
  | '&' :: t => some (t.dropWhile isPyWs)
  | _ =>
    if (match prevC with | none => true | some p => !(isWordChar p)) then
      match dropCIPfx "and".data r1 with
      | some t =>
        (match t with
         | c :: _ => if !(isWordChar c) then some (t.dropWhile isPyWs) else none
         | [] => some [])
      | none => none
    else none

/-- `re.split` driver with previous-character context for `\b`. -/
def splitAtSepPrev (sep : Option Char → List Char → Option (List Char)) :
    Option Char → List Char → List Char → Nat → List (List Char)
  | _, acc, [], _ => [acc.reverse]
  | _, acc, c :: cs, 0 => [acc.reverse ++ c :: cs]
  | prev, acc, c :: cs, fuel + 1 =>
    match sep prev (c :: cs) with
    | some rest =>
      let consumed := (c :: cs).take ((c :: cs).length - rest.length)
      acc.reverse :: splitAtSepPrev sep
        (match consumed.getLast? with | some x => some x | none => prev) [] rest fuel
    | none => splitAtSepPrev sep (some c) (c :: acc) cs fuel

/-- `re.search(r'\bNo\.?\s*\d+', part, re.I)` as a boolean. -/
def hasCaseNoMark (l : List Char) : Bool :=
  scanAny (fun prev suf => (noNumAt prev suf).isSome) none l

/-- Final per-name dedup of `_extract_names_from_block` (key: lowered
name, first occurrence kept). -/
def dedupNames (seen : List String) : List String → List String
  | [] => []
  | n :: rest =>
    if seen.contains (strLower n) then dedupNames seen rest
    else n :: dedupNames (strLower n :: seen) rest

/-- `_extract_names_from_block`: split on delimiters, clean each chunk,
keep capitalized, number-free names of length at least 3, deduplicate. -/
def _extract_names_from_block (block : String) : List String :=
  if block = "" then []
  else
    let parts := splitAtSepPrev nameDelimAt none [] block.data block.data.length
    let names := parts.filterMap (fun p =>
      let part := _clean_party_chunk (String.mk p)
      if part ≠ "" ∧ 3 ≤ part.data.length then
        if !(match part.data.head? with
             | some c => 'A' ≤ c && c ≤ 'Z'
             | none => false) then none
        else if hasCaseNoMark part.data then none
        else some part
      else none)
    dedupNames [] names

/-! ### Strategy 1: the VERSUS block pattern
`^([A-Z][A-Z\s\.,&]+?)\s*\n\s*(?:VERSUS|V[Ss]?\.?)\s*\n\s*([A-Z][A-Z\s\.,&]+?)(?:\n|$)`
with `re.MULTILINE | re.IGNORECASE`, implemented as an explicit
backtracking matcher (lazy groups extend one character at a time; the
alternation and the optional `[Ss]?\.?` produce candidate lists in the
engine's preference order). -/

/-- The character class `[A-Z\s\.,&]` under `re.IGNORECASE`. -/
def s1Class (c : Char) : Bool :=
  c.isAlpha || isPyWs c || c == '.' || c == ',' || c == '&'

/-- Candidate suffixes after `(?:VERSUS|V[Ss]?\.?)`, in preference order. -/
def s1AltRests (r : List Char) : List (List Char) :=
  (match dropCIPfx "VERSUS".data r with | some t => [t] | none => []) ++
  (match dropCIPfx "V".data r with
   | some t1 => (optS t1).flatMap optDot
   | none => [])

/-- The lazy second group `([A-Z][A-Z\s\.,&]+?)(?:\n|$)`: shortest
extension whose successor is a newline or the end. -/
def s1G2Ext (acc : List Char) : List Char → Option (List Char)
  | [] => none
  | c :: cs =>
    if s1Class c then
      (if cs = [] ∨ cs.head? = some '\n' then some (acc ++ [c])
       else s1G2Ext (acc ++ [c]) cs)
    else none

/-- Entry for the second group. -/
def s1Group2 (l : List Char) : Option (List Char) :=
  match l with
  | c :: cs => if c.isAlpha then s1G2Ext [c] cs else none
  | [] => none

/-- The separator-and-second-group tail after the first group:
`\s*\n\s*(?:VERSUS|V[Ss]?\.?)\s*\n\s*` then the second group. -/
def s1TailFrom (rest : List Char) : Option (List Char) :=
  if (rest.takeWhile isPyWs).contains '\n' then
    ((s1AltRests (rest.dropWhile isPyWs)).filterMap (fun t =>
      if (t.takeWhile isPyWs).contains '\n' then
        s1Group2 (t.dropWhile isPyWs)
      else none)).head?
  else none

/-- The lazy first group: shortest extension after which the tail
matches. -/
def s1G1Ext (acc : List Char) : List Char → Option (List Char × List Char)
  | [] => none
  | c :: cs =>
    if s1Class c then
      (match s1TailFrom cs with
       | some g2 => some (acc ++ [c], g2)
       | none => s1G1Ext (acc ++ [c]) cs)
    else none

/-- One attempt of the VERSUS-block pattern at a line start. -/
def s1MatchAt (l : List Char) : Option (List Char × List Char) :=
  match l with
  | c :: cs => if c.isAlpha then s1G1Ext [c] cs else none
  | [] => none

/-- Positions after newlines (with `re.MULTILINE`, `^` anchors there). -/
def s1SearchAux : List Char → Option (List Char × List Char)
  | [] => none
  | '\n' :: cs =>
    (match s1MatchAt cs with
     | some r => some r
     | none => s1SearchAux cs)
  | _ :: cs => s1SearchAux cs

/-- Leftmost search of the VERSUS-block pattern. -/
def s1Search (l : List Char) : Option (List Char × List Char) :=
  match s1MatchAt l with
  | some r => some r
  | none => s1SearchAux l

/-! ### Strategy 2: the inline versus pattern
`([A-Z][A-Za-z\s\.,&]{3,60}?)\s+v\.?s?\.?\s+([A-Z][A-Za-z\s\.,&]{3,60}?)(?=\s*(?:Petitioner|Respondent|Appellant|\(|IN THE|CORAM|Date|$))`
with `re.IGNORECASE`. -/

/-- The stop lookahead of the inline pattern. -/
def s2LookaheadOk (l : List Char) : Bool :=
  let r := l.dropWhile isPyWs
  startsWithCI "Petitioner".data r || startsWithCI "Respondent".data r ||
  startsWithCI "Appellant".data r || r.head? = some '(' ||
  startsWithCI "IN THE".data r || startsWithCI "CORAM".data r ||
  startsWithCI "Date".data r || r.isEmpty

/-- Candidate suffixes after `\s+v\.?s?\.?\s+`, in preference order. -/
def s2SepRests (l : List Char) : List (List Char) :=
  match l with
  | c :: cs =>
    if isPyWs c then
      match cs.dropWhile isPyWs with
      | v :: t1 =>
        if v == 'v' || v == 'V' then
          ((optDot t1).flatMap (fun a => (optS a).flatMap optDot)).filterMap (fun a =>
            match a with
            | w :: u => if isPyWs w then some (u.dropWhile isPyWs) else none
            | [] => none)
        else []
      | [] => []
    else []
  | [] => []

/-- The lazy bounded group `[A-Za-z\s\.,&]{3,60}?` followed by the stop
lookahead (second group of the inline pattern). -/
def s2G2Go (n : Nat) (acc : List Char) : List Char → Option (List Char)
  | [] => if 3 ≤ n ∧ s2LookaheadOk [] then some acc else none
  | c :: cs =>
    if 3 ≤ n ∧ s2LookaheadOk (c :: cs) then some acc
    else if decide (n ≥ 60) then none
    else if s1Class c then s2G2Go (n + 1) (acc ++ [c]) cs
    else none

/-- Entry for the inline pattern's second group. -/
def s2G2From (l : List Char) : Option (List Char) :=
  match l with
  | c :: cs => if c.isAlpha then s2G2Go 0 [c] cs else none
  | [] => none

/-- Separator plus second group of the inline pattern. -/
def s2TailFrom (l : List Char) : Option (List Char) :=
  ((s2SepRests l).filterMap s2G2From).head?

/-- The lazy bounded first group of the inline pattern. -/
def s2G1Go (n : Nat) (acc : List Char) : List Char → Option (List Char × List Char)
  | [] => none
  | c :: cs =>
    match (if 3 ≤ n then s2TailFrom (c :: cs) else none) with
    | some g2 => some (acc, g2)
    | none =>
      if decide (n ≥ 60) then none
      else if s1Class c then s2G1Go (n + 1) (acc ++ [c]) cs
      else none

/-- One attempt of the inline pattern at a position. -/
def s2MatchAt (l : List Char) : Option (List Char × List Char) :=
  match l with
  | c :: cs => if c.isAlpha then s2G1Go 0 [c] cs else none
  | [] => none

/-- Leftmost search of the inline pattern. -/
def s2Search : List Char → Option (List Char × List Char)
  | [] => none
  | c :: cs =>
    match s2MatchAt (c :: cs) with
    | some r => some r
    | none => s2Search cs

/-! ### Strategies 3 and 4: labeled lines and multi-line blocks -/

/-- Python `str.split('\n')`. -/
def splitOnNlAux (acc : List Char) : List Char → List (List Char)
  | [] => [acc.reverse]
  | c :: cs =>
    if c == '\n' then acc.reverse :: splitOnNlAux [] cs
    else splitOnNlAux (c :: acc) cs

/-- Split a character list on newlines. -/
def splitOnNl (l : List Char) : List (List Char) := splitOnNlAux [] l

/-- Strategy 3 on one line:
`^\s*(?:ROLE)(?:\(s\))?\s*[:\-]\s*(.+?)$` with `re.I | re.M`; the group
is the rest of the line (a lone whitespace character when only
whitespace follows, which strips to nothing downstream). -/
def s3MatchLine (roles : List String) (line : List Char) : Option (List Char) :=
  match (roles.filterMap (fun w =>
      dropCIPfx w.data (line.dropWhile isPyWs))).head? with
  | some r1 =>
    let r2 := match r1 with
      | '(' :: sC :: ')' :: t => if sC == 's' || sC == 'S' then t else r1
      | _ => r1
    (match r2.dropWhile isPyWs with
     | c :: t =>
       if c == ':' || c == '-' then
         (match t.dropWhile isPyWs with
          | x :: rest => some (x :: rest)
          | [] =>
            (match t.filter (fun x => x ≠ '\n') with
             | x :: _ => some [x]
             | [] => none))
       else none
     | [] => none)
  | none => none

/-- Strategy 4 stop lookahead for the appellant side:
`(?=\n\s*(?:Respondent|v\.|CORAM|Date|Advocate|$))`. -/
def s4StopApp (l : List Char) : Bool :=
  match l with
  | '\n' :: t =>
    let r := t.dropWhile isPyWs
    startsWithCI "Respondent".data r || startsWithCI "v.".data r ||
    startsWithCI "CORAM".data r || startsWithCI "Date".data r ||
    startsWithCI "Advocate".data r || r.isEmpty
  | _ => false

/-- Strategy 4 stop lookahead for the respondent side:
`(?=\n\s*(?:CORAM|Date|Advocate|Appearances|$))`. -/
def s4StopResp (l : List Char) : Bool :=
  match l with
  | '\n' :: t =>
    let r := t.dropWhile isPyWs
    startsWithCI "CORAM".data r || startsWithCI "Date".data r ||
    startsWithCI "Advocate".data r || startsWithCI "Appearances".data r ||
    r.isEmpty
  | _ => false

/-- The lazy block group `((?:.|\n)*?)` up to the first stop position. -/
def s4Grab (stop : List Char → Bool) : List Char → List Char → Option (List Char)
  | acc, [] => none
  | acc, c :: cs =>
    if stop (c :: cs) then some acc.reverse else s4Grab stop (c :: acc) cs

/-- Greedy `\s*` after the colon with backtracking: try dropping `k`
whitespace characters, then fewer, until the block group finds a stop. -/
def s4TryWs (stop : List Char → Bool) (t : List Char) : Nat → Option (List Char)
  | 0 => s4Grab stop [] t
  | k + 1 =>
    match s4Grab stop [] (t.drop (k + 1)) with
    | some g => some g
    | none => s4TryWs stop t k

/-- Strategy 4 at one position:
`(?:ROLE)(?:\(s\))?\s*[:\-]\s*((?:.|\n)*?)(?=STOP)` with `re.I`. -/
def s4MatchAt (roles : List String) (stop : List Char → Bool) (suf : List Char) :
    Option (List Char) :=
  match (roles.filterMap (fun w => dropCIPfx w.data suf)).head? with
  | some r1 =>
    let r2 := match r1 with
      | '(' :: sC :: ')' :: t => if sC == 's' || sC == 'S' then t else r1
      | _ => r1
    (match r2.dropWhile isPyWs with
     | c :: t =>
       if c == ':' || c == '-' then
         s4TryWs stop t (t.takeWhile isPyWs).length
       else none
     | [] => none)
  | none => none

/-- Leftmost search for strategy 4. -/
def s4Search (roles : List String) (stop : List Char → Bool) :
    List Char → Option (List Char)
  | [] => none
  | c :: cs =>
    match s4MatchAt roles stop (c :: cs) with
    | some g => some g
    | none => s4Search roles stop cs

/-- Strategies 2-4 of `extract_parties` (everything after the strategy-1
early return), as a function of the header characters and the strategy-1
name lists `app1`/`resp1` that fell through. -/
def partiesStage2 (h : List Char) (app1 resp1 : List String) :
    List String × List String :=
  let s2res : Option (List String × List String) :=
    match s2Search h with
    | some g =>
      if app1 = [] then
        let left := _clean_party_chunk (pyStrip (String.mk g.1))
        let right := _clean_party_chunk (pyStrip (String.mk g.2))
        if left ≠ "" ∧ right ≠ "" ∧ 3 ≤ left.data.length ∧ 3 ≤ right.data.length then
          some ([left], [right])
        else none
      else none
    | none => none
  match s2res with
  | some r => r
  | none =>
    let lines := splitOnNl h
    let app3 := (lines.filterMap (s3MatchLine ["Petitioner", "Appellant"])).head?
    let resp3 := (lines.filterMap (s3MatchLine ["Respondent"])).head?
    let app4 := match app3 with
      | some b => _extract_names_from_block (pyStrip (String.mk b))
      | none => app1
    let resp4 := match resp3 with
      | some b => _extract_names_from_block (pyStrip (String.mk b))
      | none => resp1
    let app5 := if app4 = [] then
        (match s4Search ["Petitioner", "Appellant"] s4StopApp h with
         | some b => _extract_names_from_block (pyStrip (String.mk b))
         | none => app4)
      else app4
    let resp5 := if resp4 = [] then
        (match s4Search ["Respondent"] s4StopResp h with
         | some b => _extract_names_from_block (pyStrip (String.mk b))
         | none => resp4)
      else resp4
    (app5.take 5, resp5.take 3)

/-- `extract_parties`: the four-strategy cascade.  The `entities`
argument is accepted and ignored, exactly as in the source. -/
def extract_parties (header_text : String) (entities : List (String × List String)) :
    List String × List String :=
  if header_text = "" then ([], [])
  else
    let h := header_text.data
    let s1 := s1Search h
    let app1 := match s1 with
      | some g => _extract_names_from_block (pyStrip (String.mk g.1))
      | none => []
    let resp1 := match s1 with
      | some g => _extract_names_from_block (pyStrip (String.mk g.2))
      | none => []
    if s1.isSome ∧ app1 ≠ [] ∧ resp1 ≠ [] then (app1, resp1)
    else partiesStage2 h app1 resp1

/-! ## Tagger adapter (`pipeline/ner_predictor.py`) -/

/-- A raw token-level prediction `{entity, start, end}` from the external
tagger (`end` is a reserved word in Lean, hence `stop`). -/
structure RawPred where
  entity : String
  start : Nat
  stop : Nat
deriving DecidableEq, Repr

/-- `token.get("entity", "O").split("-")[-1]`: the text after the last
dash. -/
def afterLastDash (s : String) : String :=
  String.mk ((s.data.reverse.takeWhile (fun c => c ≠ '-')).reverse)

/-- The span cleaning of `_flush_current_span`:
`re.sub(r'\s+', ' ', span.replace('\n', ' ')).strip(' ,.;:')`. -/
def nerClean (span : List Char) : List Char :=
  stripSet [' ', ',', '.', ';', ':'] (collapseWs span)

/-- Flush the current token-span buffer (`_flush_current_span`): slice
the text, clean, keep spans longer than one character. -/
def flushBuf (text : List Char) (buf : Option (String × Nat × Nat)) :
    List (String × String) :=
  match buf with
  | none => []
  | some (e, s, en) =>
    let span := nerClean ((text.drop s).take (en - s))
    if 1 < span.length then [(e, String.mk span)] else []

/-- The grouping loop of step 1 of `post_process_ner`: contiguous
same-label tokens extend the buffer; a label change or an `O` token
flushes it. -/
def groupLoop (text : List Char) :
    List RawPred → Option (String × Nat × Nat) → List (String × String)
  | [], buf => flushBuf text buf
  | tok :: rest, buf =>
    let entity := afterLastDash tok.entity
    if entity = "O" then flushBuf text buf ++ groupLoop text rest none
    else
      match buf with
      | some (e, s, en) =>
        if e = entity then groupLoop text rest (some (e, s, tok.stop))
        else flushBuf text buf ++ groupLoop text rest (some (entity, tok.start, tok.stop))
      | none => groupLoop text rest (some (entity, tok.start, tok.stop))

/-- Step 1 of `post_process_ner`: group token predictions into labeled
spans. -/
def groupPredictions (text : String) (preds : List RawPred) : List (String × String) :=
  groupLoop text.data preds none

/-- The closed label set `ALL_LABELS` of `ner_predictor.py`. -/
def ALL_LABELS : List String :=
  ["CASE_NUMBER", "COURT", "DATE", "JUDGE", "PETITIONER", "RESPONDENT",
   "PRECEDENT", "PROVISION", "STATUTE", "LAWYER", "ORGANIZATION", "GPE"]

/-- Case-sensitive substring test (Python `pat in s`). -/
def findSubCS (pat : List Char) : List Char → Bool
  | [] => (dropCSPfx pat []).isSome
  | c :: cs => (dropCSPfx pat (c :: cs)).isSome || findSubCS pat cs

/-- Case-sensitive replace-all (Python `str.replace`); fuel is the input
length, enough because patterns are nonempty. -/
def replaceAllCS (pat repl : List Char) : Nat → List Char → List Char
  | 0, l => l
  | _, [] => []
  | fuel + 1, c :: cs =>
    match dropCSPfx pat (c :: cs) with
    | some rest => repl ++ replaceAllCS pat repl fuel rest
    | none => c :: replaceAllCS pat repl fuel cs

/-- `normalize_entity`: the light pre-merge normalization for
organization and statute labels (lowercased label argument). -/
def normalize_entity (label : String) (value : String) : String :=
  if label = "organization" then
    let a := replaceAllCS "Ltd".data "Limited".data value.data.length value.data
    let b := replaceAllCS "Pvt".data "Private".data a.length a
    let c := replaceAllCS "&".data "and".data b.length b
    let d := if "In ".data.isPrefixOf c then c.drop 3 else c
    let e := if "This Court in".data.isPrefixOf d then
        pyStripChars (replaceAllCS "This Court in".data [] d.length d)
      else d
    if pyStripChars e = "Private. Limited".data then ""
    else String.mk (pyStripChars e)
  else if label = "statute" then
    let a := if findSubCS "NI Act".data value.data ||
        findSubCS "Negotiable Instrument".data value.data then
        "Negotiable Instruments Act, 1881".data
      else value.data
    let b := if findSubCS "CrPC".data a then
        "Code of Criminal Procedure, 1973".data
      else a
    String.mk (pyStripChars b)
  else String.mk (pyStripChars value.data)

/-- The value cleaning of step 3 of `post_process_ner`:
`re.sub(r'\s+', ' ', span.replace('\n', ' ')).strip(' ,.;:\n')`. -/
def nerClean2 (span : List Char) : List Char :=
  stripSet [' ', ',', '.', ';', ':', '\n'] (collapseWs span)

/-- Lexicographic insertion (Python `sorted` on distinct strings). -/
def insertSorted (x : String) : List String → List String
  | [] => [x]
  | y :: ys => if x < y then x :: y :: ys else y :: insertSorted x ys

/-- Sort a list of strings lexicographically. -/
def sortStrings : List String → List String
  | [] => []
  | x :: xs => insertSorted x (sortStrings xs)

/-- Add to a per-label set, modelled as an insertion-ordered list
(membership is all that is observed before the final sort). -/
def addToSet (s : List String) (v : String) : List String :=
  if s.contains v then s else s ++ [v]

/-- One step of step 3 of `post_process_ner`: add a value under a label
only when the label is a key of the dictionary (i.e. in `ALL_LABELS`). -/
def nerAccum (d : List (String × List String)) (lab : String) (value : String) :
    List (String × List String) :=
  d.map (fun kv => if kv.1 = lab then (kv.1, addToSet kv.2 value) else kv)

/-- Fold a list of `(label, span)` pairs into the label dictionary,
cleaning and normalizing each value; pairs whose uppercased label is not
a dictionary key are dropped silently. -/
def nerFoldPairs (d : List (String × List String)) (ps : List (String × String)) :
    List (String × List String) :=
  ps.foldl (fun d p =>
    let lab := pyStrip (strUpper p.1)
    let value := normalize_entity (strLower lab) (String.mk (nerClean2 p.2.data))
    if value ≠ "" then nerAccum d lab value else d) d

/-- Steps 3 of `post_process_ner` from the grouped spans and the fallback
regex matches: merge into the `ALL_LABELS`-keyed dictionary, then emit
the non-empty labels, lowercased, each value list sorted. -/
def nerFromGrouped (grouped fallback_matches : List (String × String)) :
    List (String × List String) :=
  let init := ALL_LABELS.map (fun l => (l, ([] : List String)))
  let d2 := nerFoldPairs (nerFoldPairs init grouped) fallback_matches
  (d2.filter (fun kv => kv.2 ≠ [])).map (fun kv => (strLower kv.1, sortStrings kv.2))

/-- `post_process_ner`: group the tagger's token predictions and merge
them with the fallback regex matches.  The fallback battery (step 2 of
the source) scans `text` with fixed patterns whose emitted labels are all
literals drawn from `ALL_LABELS`; it is passed here as the list of
`(label, span)` pairs it produced. -/
def post_process_ner (text : String) (raw_preds : List RawPred)
    (fallback_matches : List (String × String)) : List (String × List String) :=
  nerFromGrouped (groupPredictions text raw_preds) fallback_matches

/-! ## Record assembly (`app.py::extract_full_data`) -/

/-- A JSON-like value of the structured record. -/
inductive Value
  | str (s : String)
  | list (l : List String)
  | obj (o : List (String × Value))
deriving Repr

/-- `extract_full_data` turns the per-zone tagger outputs into the merged
entity list: every value is tagged ` [header]` or ` [body]`. -/
def tagEnts (out : List (String × List String)) (tag : String) :
    List (String × String) :=
  out.flatMap (fun kv => kv.2.map (fun v => (strUpper kv.1, v ++ tag)))

/-- Separator `\s+v\.?\s+` (`re.I`) used by `extract_full_data` to split
a case name into parties, tested at one position. -/
def versusSepAppAt (suf : List Char) : Option (List Char) :=
  match suf with
  | c :: cs =>
    if isPyWs c then
      match cs.dropWhile isPyWs with
      | v :: r2 =>
        if v == 'v' || v == 'V' then
          let r3 := match r2 with | '.' :: t => t | _ => r2
          match r3 with
          | w :: r4 => if isPyWs w then some (r4.dropWhile isPyWs) else none
          | [] => none
        else none
      | [] => none
    else none
  | [] => none

/-- `extract_full_data`, as a function of the document's header text, the
per-zone tagger-adapter outputs, the spaCy/regex candidates, the raw
case-name extraction result (the output of
`extract_case_name_from_header`, before `normalize_case_name`), the
advocate lists, the background facts and the order summary, plus the
processing date `now` consumed by `select_primary_date`. -/
def extract_full_data
    (bertHeader bertBody : List (String × List String))
    (spacyEnts : List (String × String))
    (headerText : String)
    (rawCaseName : Option String)
    (advApp advResp : List String)
    (bgFacts : List String)
    (osResult osDecision : String)
    (osDirections : List String)
    (now : PyDate) : List (String × Value) :=
  let bertList := tagEnts bertHeader " [header]" ++ tagEnts bertBody " [body]"
  let final_output := merge_entities bertList spacyEnts
  let ar := extract_parties headerText final_output
  let case_name0 := normalize_case_name rawCaseName
  let split2 : Option (String × String) := match case_name0 with
    | some cn =>
      if findSubCS " v. ".data cn.data ∧ (ar.1 = [] ∨ ar.2 = []) then
        match splitAtSep versusSepAppAt [] cn.data cn.data.length with
        | [a, b] => some (pyStrip (String.mk a), pyStrip (String.mk b))
        | _ => none
      else none
    | none => none
  let appellants := match split2 with
    | some pr => if ar.1 = [] then [pr.1] else ar.1
    | none => ar.1
  let respondents := match split2 with
    | some pr => if ar.2 = [] then [pr.2] else ar.2
    | none => ar.2
  let case_name : Option String := match case_name0 with
    | some cn => some cn
    | none =>
      if appellants ≠ [] ∧ respondents ≠ [] then
        make_case_name appellants (match respondents with | r :: _ => [r] | [] => [])
      else none
  let s1 : List (String × Value) := match case_name with
    | some cn => if cn ≠ "" then [("case_name", Value.str cn)] else []
    | none => []
  let s2 := match select_primary_case_number (getD final_output "case_number") with
    | some a => if a ≠ "" then s1 ++ [("appeal_number", Value.str a)] else s1
    | none => s1
  let s3 := match select_primary_court (getD final_output "court") with
    | some c => if c ≠ "" then s2 ++ [("court", Value.str c)] else s2
    | none => s2
  let s4 := match select_primary_date (getD final_output "date") none now with
    | some d => if d ≠ "" then s3 ++ [("date_of_judgment", Value.str d)] else s3
    | none => s3
  let s5 := if getD final_output "coram" ≠ [] then
      s4 ++ [("coram", Value.list (getD final_output "coram"))] else s4
  let s6 := if appellants ≠ [] then s5 ++ [("appellants", Value.list appellants)] else s5
  let s7 := match respondents with
    | r :: _ => s6 ++ [("respondent", Value.str r)]
    | [] => s6
  let adv : List (String × Value) :=
    (if advApp ≠ [] then [("for_appellants", Value.list advApp)] else []) ++
    (if advResp ≠ [] then [("for_respondent", Value.list advResp)] else [])
  let s8 := if advApp ≠ [] ∨ advResp ≠ [] then s7 ++ [("advocates", Value.obj adv)] else s7
  let s9 := if getD final_output "precedent" ≠ [] then
      s8 ++ [("precedents", Value.list (getD final_output "precedent"))] else s8
  let s10 := if getD final_output "provision" ≠ [] then
      s9 ++ [("provisions", Value.list (getD final_output "provision"))] else s9
  let s11 := if getD final_output "statute" ≠ [] then
      s10 ++ [("statutes", Value.list (getD final_output "statute"))] else s10
  let s12 := if getD final_output "extra_courts" ≠ [] then
      s11 ++ [("lower_courts", Value.list (getD final_output "extra_courts"))] else s11
  let s13 := if getD final_output "extra_dates" ≠ [] then
      s12 ++ [("other_dates", Value.list (getD final_output "extra_dates"))] else s12
  let orderObj : List (String × Value) :=
    (if osResult ≠ "" then [("result", Value.str osResult)] else []) ++
    (if osDecision ≠ "" then [("decision", Value.str osDecision)] else []) ++
    (if osDirections ≠ [] then [("directions", Value.list osDirections)] else [])
  let contentObj : List (String × Value) :=
    (if bgFacts ≠ [] then [("background_facts", Value.list bgFacts)] else []) ++
    (if orderObj.isEmpty then [] else [("order_summary", Value.obj orderObj)])
  if contentObj.isEmpty then s13 else s13 ++ [("content_info", Value.obj contentObj)]

mutual

/-- A record value is non-empty: a non-empty string, a non-empty list, or
a non-empty object all of whose values are recursively non-empty. -/
def valueOk : Value → Bool
  | .str s => decide (s ≠ "")
  | .list l => decide (l ≠ [])
  | .obj o => !o.isEmpty && valuesOk o

/-- All values of an object are non-empty. -/
def valuesOk : List (String × Value) → Bool
  | [] => true
  | kv :: rest => valueOk kv.2 && valuesOk rest

end

/-- Look up a record key and return its value when that value is a plain
string (observation used to compare records field-wise). -/
def lookupStr (r : List (String × Value)) (k : String) : Option String :=
  match r.lookup k with
  | some (Value.str s) => some s
  | _ => none

/-! ## Theorems -/

/-- Length of the suffix returned by `dropCIPfx`. -/
theorem dropCIPfx_length :
    ∀ (p l r : List Char), dropCIPfx p l = some r → r.length + p.length = l.length := by
  intro p
  induction p with
  | nil => intro l r h; simp [dropCIPfx] at h; simp [h]
  | cons a ps ih =>
    intro l r h
    cases l with
    | nil => simp [dropCIPfx] at h
    | cons c cs =>
      simp only [dropCIPfx] at h
      by_cases hc : (a.toLower == c.toLower) = true
      · rw [if_pos hc] at h
        have := ih cs r h
        simp [List.length_cons]
        omega
      · rw [if_neg hc] at h; cases h

/-- Filtering the non-blank entries is invariant under trimming blank
edge entries. -/
theorem filter_stripBlankEdges (l : List String) :
    (stripBlankEdges l).filter (fun s => s ≠ "") = l.filter (fun s => s ≠ "") := by
  unfold stripBlankEdges
  have hdrop : ∀ (m : List String),
      (m.dropWhile (· = "")).filter (fun s => s ≠ "") = m.filter (fun s => s ≠ "") := by
    intro m
    induction m with
    | nil => rfl
    | cons a t ih =>
      by_cases ha : a = ""
      · subst ha; simpa using ih
      · simp [List.dropWhile, List.filter, ha]
  rw [List.filter_reverse, hdrop, List.filter_reverse, List.reverse_reverse, hdrop]

/-- Main loop invariant: the concatenated zones, restricted to non-blank
entries, extend the current buffers by exactly the stripped non-blank
remaining lines, in order.  The side conditions record that the buffers
ahead of the current state are still empty. -/
theorem segLoop_partition (lines : List String) :
    ∀ (st : SegState) (h b o : List String),
    (st = SegState.header → b = [] ∧ o = []) →
    (st = SegState.body → o = []) →
    ((segLoop lines st h b o).1 ++ (segLoop lines st h b o).2.1 ++
        (segLoop lines st h b o).2.2).filter (fun s => s ≠ "")
      = (h ++ b ++ o).filter (fun s => s ≠ "")
        ++ ((lines.filter (fun l => pyStrip l ≠ "")).map pyStrip) := by
  induction lines with
  | nil => intro st h b o _ _; simp [segLoop]
  | cons raw rest ih =>
    intro st h b o hcondH hcondB
    by_cases hs : pyStrip raw = ""
    · -- blank line: possibly append "" to the body buffer
      by_cases hb : st = SegState.body ∧ b ≠ [] ∧ b.getLast? ≠ some ""
      · have hstep : segStep st h b o raw = (st, h, b ++ [""], o) := by
          simp [segStep, hs, hb]
        have hrec := ih st h (b ++ [""]) o
          (by intro hh; exact absurd (hb.1.symm.trans hh) (by simp))
          (by intro hh; exact hcondB hh)
        simp only [segLoop, hstep]
        rw [hrec]
        simp [hs, List.filter_append]
      · have hstep : segStep st h b o raw = (st, h, b, o) := by
          simp [segStep, hs, hb]
        have hrec := ih st h b o hcondH hcondB
        simp only [segLoop, hstep]
        rw [hrec]
        simp [hs]
    · -- non-blank line
      simp only [segLoop]
      by_cases hord : _looks_like_order_start (pyStrip raw) = true
      · -- goes to the order zone
        have hstep : segStep st h b o raw = (SegState.order, h, b, o ++ [pyStrip raw]) := by
          simp [segStep, hs, hord]
        have hrec := ih SegState.order h b (o ++ [pyStrip raw])
          (by intro hh; cases hh) (by intro hh; cases hh)
        simp only [hstep]
        rw [hrec]
        simp [hs, List.filter_append]
      · cases st with
        | header =>
          obtain ⟨hb0, ho0⟩ := hcondH rfl
          subst hb0; subst ho0
          by_cases hcue : (bodyStartCue (pyStrip raw) || decide (h.length > 50) ||
              (!(_is_header_line (pyStrip raw)) && proseCue (pyStrip raw))) = true
          · have hstep : segStep SegState.header h [] [] raw
                = (SegState.body, h, [pyStrip raw], []) := by
              simp [segStep, hs, hord, hcue]
            have hrec := ih SegState.body h [pyStrip raw] []
              (by intro hh; cases hh) (by intro _; rfl)
            simp only [hstep]
            rw [hrec]
            simp [hs, List.filter_append]
          · have hstep : segStep SegState.header h [] [] raw
                = (SegState.header, h ++ [pyStrip raw], [], []) := by
              simp only [segStep, hs]
              rw [if_neg (by simp [hs]), if_neg (by simp [hord])]
              simp only []
              rw [if_neg (by simpa using hcue)]
            have hrec := ih SegState.header (h ++ [pyStrip raw]) [] []
              (by intro _; exact ⟨rfl, rfl⟩) (by intro hh; cases hh)
            simp only [hstep]
            rw [hrec]
            simp [hs, List.filter_append]
        | body =>
          have ho0 := hcondB rfl
          subst ho0
          have hstep : segStep SegState.body h b [] raw
              = (SegState.body, h, b ++ [pyStrip raw], []) := by
            simp [segStep, hs, hord]
          have hrec := ih SegState.body h (b ++ [pyStrip raw]) []
            (by intro hh; cases hh) (by intro _; rfl)
          simp only [hstep]
          rw [hrec]
          simp [hs, List.filter_append]
        | order =>
          have hstep : segStep SegState.order h b o raw
              = (SegState.order, h, b, o ++ [pyStrip raw]) := by
            simp [segStep, hs, hord]
          have hrec := ih SegState.order h b (o ++ [pyStrip raw])
            (by intro hh; cases hh) (by intro hh; cases hh)
          simp only [hstep]
          rw [hrec]
          simp [hs, List.filter_append]

/-- The body re-split post-pass does not create or lose non-blank lines. -/
theorem postSplit_filter (h b o : List String) :
    ((postSplit h b o).header ++ (postSplit h b o).body ++
        (postSplit h b o).order).filter (fun s => s ≠ "")
      = (h ++ b ++ o).filter (fun s => s ≠ "") := by
  unfold postSplit
  by_cases hc : o = [] ∧ b ≠ []
  · rw [if_pos hc]
    rcases hfind : b.findIdx? heldOrderMarker with _ | i
    · simp
    · simp only [List.filter_append, hc.1]
      rw [filter_stripBlankEdges, filter_stripBlankEdges]
      rw [List.append_assoc, ← List.filter_append, List.take_append_drop]
      simp
  · rw [if_neg hc]

/-- C1.  Segmentation is a partition: for every input (as a list of
lines), the concatenation of the header, body and order zones accounts
for every non-blank input line exactly once, in order, up to stripping
surrounding whitespace — and no line lands in more than one zone.  The
property survives the `Held:`/`ORDER` body re-split post-pass. -/
theorem segmentation_partition (lines : List String) :
    (((split_segments lines).header ++ (split_segments lines).body ++
        (split_segments lines).order).filter (fun s => s ≠ ""))
      = (lines.filter (fun l => pyStrip l ≠ "")).map pyStrip := by
  have hloop := segLoop_partition lines SegState.header [] [] []
    (by intro _; exact ⟨rfl, rfl⟩) (by intro hh; cases hh)
  unfold split_segments
  rw [postSplit_filter]
  simp only [List.filter_append] at hloop ⊢
  rw [filter_stripBlankEdges, filter_stripBlankEdges, filter_stripBlankEdges]
  simpa using hloop

/-! ### Precedent deduplication invariants -/

/-- Every string kept by the fuzzy-deduplication loop passed the
minimum-base-length check. -/
theorem dedupPrecLoop_base_min (l : List String) :
    ∀ (seen : List String) (p : String), p ∈ dedupPrecLoop seen l →
      10 ≤ (precBase p).data.length := by
  induction l with
  | nil => intro seen p hp; simp [dedupPrecLoop] at hp
  | cons x rest ih =>
    intro seen p hp
    simp only [dedupPrecLoop] at hp
    split at hp
    · exact ih seen p hp
    · split at hp
      · exact ih seen p hp
      · rcases List.mem_cons.mp hp with h | h
        · subst h
          rename_i hlen _
          simp only [decide_eq_true_eq, Nat.not_lt] at hlen
          exact hlen
        · exact ih _ p h

/-- C10.  The precedent deduplication silently discards every candidate
whose base name (the text left after stripping a trailing `(year)…`
citation or `SCC/SCR/AIR…` reporter suffix) is shorter than 10
characters — even a unique candidate, as the concrete instance shows —
so every surviving precedent has a base name of at least 10 characters. -/
theorem precedent_min_base_length :
    (∀ (precedents : List String) (p : String), p ∈ _deduplicate_precedents precedents →
      10 ≤ (precBase p).data.length) ∧
    _deduplicate_precedents ["Ab v. Cd"] = [] := by
  constructor
  · intro ps p hp
    unfold _deduplicate_precedents at hp
    exact dedupPrecLoop_base_min _ [] p (List.mem_of_mem_take hp)
  · decide

/-- Witness: the invariant of `precedent_min_base_length` at a concrete
surviving candidate. -/
theorem precedent_min_base_length_witness :
    10 ≤ (precBase "Abcdefghij v. Klmnopqrst").data.length :=
  precedent_min_base_length.1 ["Abcdefghij v. Klmnopqrst"]
    "Abcdefghij v. Klmnopqrst" (by decide)

/-- C2 counterexample.  The fused per-label output of `merge_entities`
does carry empty lists for labels with zero surviving candidates: the
expected-key padding of step 4 inserts them (here `court` on empty
input), contradicting the claim that the fused output carries no empty
list for such a label. -/
theorem merge_entities_pads_empty_lists :
    (merge_entities [] []).lookup "court" = some [] := by decide

set_option maxRecDepth 4000 in
/-- C3 counterexample.  For the `precedent` label the fused list is
re-sorted by decreasing length by the fuzzy deduplication, so a
rule-provenance span can precede a header-provenance span: merging one
header-tagged precedent and one longer spaCy/regex precedent yields the
rule span first. -/
theorem merge_precedent_header_not_first :
    (merge_entities [("PRECEDENT", "Aaaa v. Bbbb Cc [header]")]
        [("PRECEDENT", "Dddddd v. Eeeeee Ffff")]).lookup "precedent"
      = some ["Dddddd v. Eeeeee Ffff", "Aaaa v. Bbbb Cc"] := by
  decide

/-! ### Fusion bucket ordering -/

/-- Splitting the clean-and-deduplicate fold of step 3 over an append:
the survivors of the first part come first, and the second part is
processed under the seen-set left by the first. -/
theorem cleanFold_append (key : String) (xs : List String) :
    ∀ (ys : List String) (seen : List String), cleanFold key seen (xs ++ ys) =
      ((cleanFold key seen xs).1 ++ (cleanFold key (cleanFold key seen xs).2 ys).1,
       (cleanFold key (cleanFold key seen xs).2 ys).2) := by
  induction xs with
  | nil => intro ys seen; simp [cleanFold]
  | cons x rest ih =>
    intro ys seen
    simp only [List.cons_append, cleanFold]
    cases cleanStep key x with
    | none => exact ih ys seen
    | some v2 =>
      simp only
      by_cases hc : seen.contains (strLower v2) = true
      · simp only [hc, if_true]
        exact ih ys seen
      · simp only [hc, if_false, Bool.false_eq_true]
        rw [List.append_eq, ih ys (strLower v2 :: seen)]
        simp

/-- C3 amended.  For every label other than `precedent`, the fused
candidate list of the merge step is the header-bucket survivors, then
the untagged-model-bucket survivors, then the remaining-bucket survivors
(body-tagged model candidates followed by rule candidates), each bucket
in discovery order and deduplicated against everything fused before it;
in particular a header-provenance span and a rule-provenance span with
different surviving texts for the same label fuse with the header span
first.  For the `precedent` label the property fails (see the
counterexample): the fuzzy deduplication re-sorts candidates by length. -/
theorem merge_priority_ordering (key : String) (items : List (String × String))
    (hk : key ≠ "precedent") :
    (processKey key items =
      (cleanFold key [] (bucketVals items 0)).1 ++
      ((cleanFold key (cleanFold key [] (bucketVals items 0)).2 (bucketVals items 1)).1 ++
       (cleanFold key (cleanFold key (cleanFold key [] (bucketVals items 0)).2
          (bucketVals items 1)).2 (bucketVals items 2)).1)) ∧
    (∀ (hv rv v2h v2r : String), cleanStep key hv = some v2h →
      cleanStep key rv = some v2r → strLower v2r ≠ strLower v2h →
      processKey key [(hv, "header"), (rv, "spacy")] = [v2h, v2r]) := by
  constructor
  · unfold processKey
    simp only [if_neg hk, bucketVals]
    simp only [cleanFold_append]
    simp [List.append_assoc]
  · intro hv rv v2h v2r hsh hsr hne
    dsimp only [processKey]
    rw [if_neg hk]
    have h1 : decide (bucketOf "header" = 0) = true := by decide
    have h2 : decide (bucketOf "header" = 1) = false := by decide
    have h3 : decide (bucketOf "header" = 2) = false := by decide
    have h4 : decide (bucketOf "spacy" = 0) = false := by decide
    have h5 : decide (bucketOf "spacy" = 1) = false := by decide
    have h6 : decide (bucketOf "spacy" = 2) = true := by decide
    simp only [List.filter_cons, List.filter_nil, h1, h2, h3, h4, h5, h6, if_true, if_false,
      List.map_cons, List.map_nil, List.nil_append, List.append_nil, List.cons_append]
    simp [cleanFold, hsh, hsr, hne]

/-- Witness: the header-before-rule instance of `merge_priority_ordering`
at a concrete label and pair of spans. -/
theorem merge_priority_ordering_witness :
    processKey "date" [("01.02.2020", "header"), ("03.04.2021", "spacy")] =
      ["01.02.2020", "03.04.2021"] :=
  (merge_priority_ordering "date" [("01.02.2020", "header"), ("03.04.2021", "spacy")]
    (by decide)).2 "01.02.2020" "03.04.2021" "01.02.2020" "03.04.2021"
    (by decide) (by decide) (by decide)

/-! ### Fuzzy deduplication of precedents (C5) -/

/-- A value kept by the fuzzy loop is dissimilar from every base seen
when it was processed. -/
theorem dedupPrecLoop_not_similar_seen (l : List String) :
    ∀ (seen : List String) (p : String), p ∈ dedupPrecLoop seen l →
      ∀ s ∈ seen, fuzzyOver85 (strLower (precBase p)).data s.data = false := by
  induction l with
  | nil => intro seen p hp; simp [dedupPrecLoop] at hp
  | cons x rest ih =>
    intro seen p hp
    simp only [dedupPrecLoop] at hp
    split at hp
    · exact ih seen p hp
    · split at hp
      · exact ih seen p hp
      · rcases List.mem_cons.mp hp with h | h
        · subst h
          rename_i hdup
          intro s hs
          have hany : isFuzzyDup (strLower (precBase p)) seen = false := by
            simpa using hdup
          unfold isFuzzyDup at hany
          exact Bool.eq_false_iff.mpr (List.any_eq_false.mp hany s hs)
        · intro s hs
          exact ih _ p h s (List.mem_cons_of_mem _ hs)

/-- The kept precedents are pairwise dissimilar: a later survivor's base
never exceeds the 0.85 similarity threshold against an earlier one. -/
theorem dedupPrecLoop_pairwise (l : List String) :
    ∀ (seen : List String), List.Pairwise (fun p q =>
      fuzzyOver85 (strLower (precBase q)).data (strLower (precBase p)).data = false)
      (dedupPrecLoop seen l) := by
  induction l with
  | nil => intro seen; simp [dedupPrecLoop]
  | cons x rest ih =>
    intro seen
    simp only [dedupPrecLoop]
    split
    · exact ih seen
    · split
      · exact ih seen
      · refine List.Pairwise.cons ?_ (ih _)
        intro q hq
        exact dedupPrecLoop_not_similar_seen rest _ q hq _ (List.mem_cons_self _ _)

/-- C5 counterexample.  Two precedent entries whose base names are more
than 0.85 similar do not always collapse to the longer raw text: when the
longer entry's own base name is shorter than 10 characters it is dropped
by the minimum-length filter and the shorter entry survives instead. -/
theorem precedent_dedup_keeps_shorter :
    _deduplicate_precedents
        ["Ab v. Cd (2023) 5 SCC 100 and more", "Ab v. Cdxx (2024) 1 SCC 5"]
      = ["Ab v. Cdxx (2024) 1 SCC 5"] ∧
    fuzzyOver85 (strLower (precBase "Ab v. Cd (2023) 5 SCC 100 and more")).data
      (strLower (precBase "Ab v. Cdxx (2024) 1 SCC 5")).data = true ∧
    ("Ab v. Cdxx (2024) 1 SCC 5").data.length <
      ("Ab v. Cd (2023) 5 SCC 100 and more").data.length := by decide

/-- C5 amended.  The fuzzy deduplication keeps at most 15 entries; the
survivors are pairwise at most 0.85-similar on lowered base names;
provided both base names are at least 10 characters long, a
similar-above-threshold pair (in either input order) collapses to the
longer raw text; and the spec's concrete example — a precedent and the
same precedent with a `"(2023) 5 SCC 100"` suffix — collapses to the
longer string. -/
theorem precedent_fuzzy_dedup_spec :
    (∀ ps : List String, (_deduplicate_precedents ps).length ≤ 15) ∧
    (∀ ps : List String, List.Pairwise (fun p q =>
      fuzzyOver85 (strLower (precBase q)).data (strLower (precBase p)).data = false)
      (_deduplicate_precedents ps)) ∧
    (∀ p q : String, p ≠ q → q.data.length < p.data.length →
      10 ≤ (precBase p).data.length →
      fuzzyOver85 (strLower (precBase q)).data (strLower (precBase p)).data = true →
      _deduplicate_precedents [p, q] = [p] ∧ _deduplicate_precedents [q, p] = [p]) ∧
    _deduplicate_precedents
        ["Aaaa Bbbb v. Cccc Dddd", "Aaaa Bbbb v. Cccc Dddd (2023) 5 SCC 100"]
      = ["Aaaa Bbbb v. Cccc Dddd (2023) 5 SCC 100"] := by
  refine ⟨?_, ?_, ?_, ?_⟩
  · intro ps
    exact List.length_take_le _ _
  · intro ps
    exact List.Pairwise.sublist (List.take_sublist _ _) (dedupPrecLoop_pairwise _ [])
  · intro p q hne hlen hbase hsim
    have hqp : (q == p) = false := by simp [Ne.symm hne]
    have hpq : (p == q) = false := by simp [hne]
    have hd1 : dedupAux [] [p, q] = [p, q] := by
      simp [dedupAux, Ne.symm hne]
    have hd2 : dedupAux [] [q, p] = [q, p] := by
      simp [dedupAux, hne]
    have hlen' : q.length < p.length := hlen
    have hs1 : sortLenDesc [p, q] = [p, q] := by
      simp [sortLenDesc, insertByLenDesc, hlen']
    have hs2 : sortLenDesc [q, p] = [p, q] := by
      simp [sortLenDesc, insertByLenDesc, Nat.not_lt.mpr (Nat.le_of_lt hlen')]
    have hloopq : dedupPrecLoop [strLower (precBase p)] [q] = [] := by
      have hun : dedupPrecLoop [strLower (precBase p)] [q] =
          (if decide ((precBase q).data.length < 10) then
            dedupPrecLoop [strLower (precBase p)] []
          else if isFuzzyDup (strLower (precBase q)) [strLower (precBase p)] then
            dedupPrecLoop [strLower (precBase p)] []
          else q :: dedupPrecLoop (strLower (precBase q) :: [strLower (precBase p)]) []) := rfl
      rw [hun]
      by_cases hq : (precBase q).data.length < 10
      · rw [if_pos (by simpa using hq)]
        rfl
      · rw [if_neg (by simp only [decide_eq_true_eq]; exact hq)]
        rw [if_pos (by simp [isFuzzyDup, hsim])]
        rfl
    have hloop : dedupPrecLoop [] [p, q] = [p] := by
      have hun : dedupPrecLoop [] [p, q] =
          (if decide ((precBase p).data.length < 10) then dedupPrecLoop [] [q]
          else if isFuzzyDup (strLower (precBase p)) [] then dedupPrecLoop [] [q]
          else p :: dedupPrecLoop (strLower (precBase p) :: []) [q]) := rfl
      rw [hun]
      rw [if_neg (by simp only [decide_eq_true_eq, Nat.not_lt]; exact hbase)]
      rw [if_neg (by simp [isFuzzyDup])]
      rw [hloopq]
    constructor
    · unfold _deduplicate_precedents
      rw [hd1, hs1, hloop]
      rfl
    · unfold _deduplicate_precedents
      rw [hd2, hs2, hloop]
      rfl
  · decide

/-- Witness: the longer-kept clause of `precedent_fuzzy_dedup_spec` at a
concrete similar pair with long bases. -/
theorem precedent_fuzzy_dedup_spec_witness :
    _deduplicate_precedents
        ["Abcdefgh v. Ijklmnop (2020) 1 SCC 99", "Abcdefgh v. Ijklmnop"]
      = ["Abcdefgh v. Ijklmnop (2020) 1 SCC 99"] :=
  ((precedent_fuzzy_dedup_spec.2.2.1 "Abcdefgh v. Ijklmnop (2020) 1 SCC 99"
    "Abcdefgh v. Ijklmnop" (by decide) (by decide) (by decide) (by decide)).1)

/-! ### Tagger adapter label filtering (C8) -/

/-- Adding a value never changes the key list of the label dictionary. -/
theorem nerAccum_keys (d : List (String × List String)) (lab v : String) :
    (nerAccum d lab v).map Prod.fst = d.map Prod.fst := by
  induction d with
  | nil => rfl
  | cons kv rest ih =>
    simp only [nerAccum, List.map_cons] at ih ⊢
    by_cases h : kv.1 = lab
    · simpa [h] using ih
    · simpa [h] using ih

/-- Adding under a label that is not a key leaves the dictionary
unchanged. -/
theorem nerAccum_absent (d : List (String × List String)) (lab v : String)
    (h : ∀ kv ∈ d, kv.1 ≠ lab) : nerAccum d lab v = d := by
  induction d with
  | nil => rfl
  | cons kv rest ih =>
    simp only [nerAccum, List.map_cons]
    rw [if_neg (h kv (List.mem_cons_self _ _))]
    have := ih (fun kv' hm => h kv' (List.mem_cons_of_mem _ hm))
    simp only [nerAccum] at this
    rw [this]

/-- Folding pairs never changes the key list. -/
theorem nerFoldPairs_keys (ps : List (String × String)) :
    ∀ (d : List (String × List String)),
      (nerFoldPairs d ps).map Prod.fst = d.map Prod.fst := by
  induction ps with
  | nil => intro d; rfl
  | cons p rest ih =>
    intro d
    have hstep : nerFoldPairs d (p :: rest)
        = nerFoldPairs (if normalize_entity (strLower (pyStrip (strUpper p.1)))
              (String.mk (nerClean2 p.2.data)) ≠ "" then
            nerAccum d (pyStrip (strUpper p.1))
              (normalize_entity (strLower (pyStrip (strUpper p.1)))
                (String.mk (nerClean2 p.2.data)))
          else d) rest := rfl
    rw [hstep]
    split
    · rw [ih, nerAccum_keys]
    · rw [ih]

/-- Pairs whose uppercased label is outside the dictionary keys are
dropped silently: filtering them away does not change the fold. -/
theorem nerFoldPairs_filter (ps : List (String × String)) :
    ∀ (d : List (String × List String)), d.map Prod.fst = ALL_LABELS →
      nerFoldPairs d (ps.filter (fun p =>
        ALL_LABELS.contains (pyStrip (strUpper p.1)))) = nerFoldPairs d ps := by
  induction ps with
  | nil => intro d _; rfl
  | cons p rest ih =>
    intro d hd
    have hstep : ∀ (e : List (String × List String)) (qs : List (String × String)),
        nerFoldPairs e (p :: qs)
          = nerFoldPairs (if normalize_entity (strLower (pyStrip (strUpper p.1)))
                (String.mk (nerClean2 p.2.data)) ≠ "" then
              nerAccum e (pyStrip (strUpper p.1))
                (normalize_entity (strLower (pyStrip (strUpper p.1)))
                  (String.mk (nerClean2 p.2.data)))
            else e) qs := fun _ _ => rfl
    by_cases hk : ALL_LABELS.contains (pyStrip (strUpper p.1)) = true
    · have hk' : pyStrip (strUpper p.1) ∈ ALL_LABELS := by simpa using hk
      have hf : List.filter (fun q => ALL_LABELS.contains (pyStrip (strUpper q.1))) (p :: rest)
          = p :: List.filter (fun q => ALL_LABELS.contains (pyStrip (strUpper q.1))) rest := by
        simp [List.filter_cons, hk']
      rw [hf, hstep, hstep]
      by_cases hv : normalize_entity (strLower (pyStrip (strUpper p.1)))
          (String.mk (nerClean2 p.2.data)) ≠ ""
      · rw [if_pos hv]
        exact ih _ (by rw [nerAccum_keys]; exact hd)
      · rw [if_neg hv]
        exact ih _ hd
    · have hk' : pyStrip (strUpper p.1) ∉ ALL_LABELS := by simpa using hk
      have hf : List.filter (fun q => ALL_LABELS.contains (pyStrip (strUpper q.1))) (p :: rest)
          = List.filter (fun q => ALL_LABELS.contains (pyStrip (strUpper q.1))) rest := by
        simp [List.filter_cons, hk']
      rw [hf, hstep]
      have habs : (if normalize_entity (strLower (pyStrip (strUpper p.1)))
            (String.mk (nerClean2 p.2.data)) ≠ "" then
          nerAccum d (pyStrip (strUpper p.1))
            (normalize_entity (strLower (pyStrip (strUpper p.1)))
              (String.mk (nerClean2 p.2.data)))
        else d) = d := by
        split
        · apply nerAccum_absent
          intro kv hm hcontra
          apply hk
          have hmem : kv.1 ∈ ALL_LABELS := by
            rw [← hd]
            exact List.mem_map_of_mem Prod.fst hm
          rw [← hcontra]
          simpa using hmem
        · rfl
      rw [habs]
      exact ih _ hd

/-- The initial label dictionary is keyed exactly by `ALL_LABELS`. -/
theorem nerInit_keys :
    ((ALL_LABELS.map (fun l => (l, ([] : List String)))).map Prod.fst) = ALL_LABELS := rfl

/-- C8.  Malformed external output is dropped silently: grouped spans
whose label lies outside the closed `ALL_LABELS` set contribute nothing
to the adapter's output (filtering them away changes nothing), and every
label key in the adapter's output belongs to the closed set
(lowercased). -/
theorem adapter_drops_unknown_labels :
    (∀ (grouped fb : List (String × String)),
      nerFromGrouped (grouped.filter (fun p =>
        ALL_LABELS.contains (pyStrip (strUpper p.1)))) fb = nerFromGrouped grouped fb) ∧
    (∀ (text : String) (preds : List RawPred) (fb : List (String × String)),
      ((post_process_ner text preds fb).map Prod.fst).all
        (fun k => (ALL_LABELS.map strLower).contains k) = true) := by
  constructor
  · intro grouped fb
    simp only [nerFromGrouped]
    rw [nerFoldPairs_filter grouped _ nerInit_keys]
  · intro text preds fb
    rw [List.all_eq_true]
    intro k hk
    simp only [post_process_ner, nerFromGrouped, List.map_map] at hk
    rw [List.mem_map] at hk
    obtain ⟨kv2, hkv2, hkeq2⟩ := hk
    have h1 : kv2 ∈ nerFoldPairs (nerFoldPairs
        (ALL_LABELS.map (fun l => (l, ([] : List String)))) (groupPredictions text preds)) fb :=
      List.mem_of_mem_filter hkv2
    have h2 : (nerFoldPairs (nerFoldPairs
        (ALL_LABELS.map (fun l => (l, ([] : List String)))) (groupPredictions text preds))
          fb).map Prod.fst = ALL_LABELS := by
      rw [nerFoldPairs_keys, nerFoldPairs_keys, nerInit_keys]
    have h3 := List.mem_map_of_mem Prod.fst h1
    rw [h2] at h3
    rw [← hkeq2]
    simpa using List.mem_map_of_mem strLower h3

/-! ### Date selector characterization (C4) -/

/-- `validDates` distributes over cons. -/
theorem validDates_cons (d : String) (rest : List String) (now : PyDate) :
    validDates (d :: rest) now
      = (match _try_parse_date d with
         | some dt => if dateLe dt now then (d, dt) :: validDates rest now
                      else validDates rest now
         | none => validDates rest now) := by
  unfold validDates
  rw [List.filterMap_cons]
  cases hp : _try_parse_date d with
  | none => rfl
  | some dt =>
    dsimp only
    by_cases h : dateLe dt now = true
    · simp [h]
    · have h' : dateLe dt now = false := Bool.eq_false_iff.mpr h
      simp [h']

/-- `validDates` of the empty candidate list. -/
theorem validDates_nil (now : PyDate) : validDates [] now = [] := rfl

/-- `validDates` depends on the processing date only through the cutoff
classification of each parseable date. -/
theorem validDates_now_congr (cands : List String) (now1 now2 : PyDate)
    (h : ∀ dt : PyDate, dateLe dt now1 = dateLe dt now2) :
    validDates cands now1 = validDates cands now2 := by
  induction cands with
  | nil =>
    unfold validDates
    rw [List.filterMap_nil, List.filterMap_nil]
  | cons d rest ih =>
    rw [validDates_cons, validDates_cons]
    generalize _try_parse_date d = r
    cases r with
    | none => exact ih
    | some dt =>
      dsimp only
      rw [h dt, ih]

/-- `select_primary_date` depends on the processing date only through the
cutoff classification of each parseable date. -/
theorem select_primary_date_now_congr (dates : List String) (ht : Option String)
    (now1 now2 : PyDate) (h : ∀ dt : PyDate, dateLe dt now1 = dateLe dt now2) :
    select_primary_date dates ht now1 = select_primary_date dates ht now2 := by
  unfold select_primary_date
  by_cases hne : dates = []
  · rw [if_pos hne, if_pos hne]
  · rw [if_neg hne, if_neg hne]
    dsimp only
    cases (match ht with
           | some h0 =>
             if h0 ≠ "" then
               (candLoop [] dates).find? (fun d : String => findSubCI d.data h0.data)
             else none
           | none => none) with
    | some d => rfl
    | none =>
      dsimp only
      rw [validDates_now_congr _ _ _ h]

/-- C9 counterexample: with the document text and the external tagger
output both held fixed, two runs of the extraction core at different
wall-clock processing dates produce different records — the future-date
cutoff of `select_primary_date` reads `datetime.now()`, so the output is
not a function of the text and tagger output alone. -/
theorem pipeline_depends_on_clock :
    lookupStr (extract_full_data [("DATE", ["12 March 2023", "01-01-2030"])] [] []
        "" none [] [] [] "" "" [] ⟨2025, 10, 12⟩) "date_of_judgment"
      = some "12 March 2023" ∧
    lookupStr (extract_full_data [("DATE", ["12 March 2023", "01-01-2030"])] [] []
        "" none [] [] [] "" "" [] ⟨2031, 1, 1⟩) "date_of_judgment"
      = some "01-01-2030" := by
  constructor <;> decide

set_option maxHeartbeats 8000000 in
/-- C9 (amended).  The extraction core is deterministic once the
processing date is fixed: its output is a function of the text-derived
inputs, the tagger output and the `datetime.now()` cutoff alone, and two
runs whose processing dates classify every parseable date identically
produce identical records. -/
theorem extract_full_data_now_invariant
    (bertHeader bertBody : List (String × List String))
    (spacyEnts : List (String × String)) (headerText : String)
    (rawCaseName : Option String) (advApp advResp bgFacts : List String)
    (osResult osDecision : String) (osDirections : List String)
    (now1 now2 : PyDate)
    (h : ∀ dt : PyDate, dateLe dt now1 = dateLe dt now2) :
    extract_full_data bertHeader bertBody spacyEnts headerText rawCaseName
        advApp advResp bgFacts osResult osDecision osDirections now1
      = extract_full_data bertHeader bertBody spacyEnts headerText rawCaseName
          advApp advResp bgFacts osResult osDecision osDirections now2 := by
  have hsel := select_primary_date_now_congr
    (getD (merge_entities (tagEnts bertHeader " [header]" ++ tagEnts bertBody " [body]")
      spacyEnts) "date") none now1 now2 h
  unfold extract_full_data
  dsimp only
  rw [hsel]

/-- Witness: two distinct processing-date records with the same date key
classify all dates equally, so the record is unchanged. -/
theorem extract_full_data_now_invariant_witness :
    (∀ dt : PyDate, dateLe dt ⟨2025, 10, 12⟩ = dateLe dt ⟨2024, 110, 12⟩) ∧
    extract_full_data [("DATE", ["12 March 2023"])] [] [] "" none [] [] [] "" "" []
        ⟨2025, 10, 12⟩
      = extract_full_data [("DATE", ["12 March 2023"])] [] [] "" none [] [] [] "" "" []
          ⟨2024, 110, 12⟩ :=
  ⟨fun _ => rfl,
   extract_full_data_now_invariant [("DATE", ["12 March 2023"])] [] [] "" none [] [] []
     "" "" [] ⟨2025, 10, 12⟩ ⟨2024, 110, 12⟩ (fun _ => rfl)⟩

/-! ### Party-extraction caps and dedup (C6) -/

/-- Every name kept by `dedupNames` has a lowered key outside `seen`. -/
theorem dedupNames_not_seen (xs : List String) :
    ∀ (seen : List String) (x : String), x ∈ dedupNames seen xs →
      seen.contains (strLower x) = false := by
  induction xs with
  | nil => intro seen x hx; cases hx
  | cons n rest ih =>
    intro seen x hx
    by_cases hc : seen.contains (strLower n) = true
    · rw [dedupNames, if_pos hc] at hx
      exact ih seen x hx
    · rw [dedupNames, if_neg hc] at hx
      rcases List.mem_cons.mp hx with rfl | hx2
      · exact Bool.eq_false_iff.mpr hc
      · have h2 := ih (strLower n :: seen) x hx2
        rw [List.contains_cons] at h2
        exact (Bool.or_eq_false_iff.mp h2).2

/-- `dedupNames` output has pairwise-distinct lowered keys. -/
theorem dedupNames_pairwise (xs : List String) :
    ∀ (seen : List String),
      (dedupNames seen xs).Pairwise (fun a b => strLower a ≠ strLower b) := by
  induction xs with
  | nil => intro seen; exact List.Pairwise.nil
  | cons n rest ih =>
    intro seen
    by_cases hc : seen.contains (strLower n) = true
    · rw [dedupNames, if_pos hc]
      exact ih seen
    · rw [dedupNames, if_neg hc]
      refine List.Pairwise.cons ?_ (ih _)
      intro b hb heq
      have h2 := dedupNames_not_seen rest (strLower n :: seen) b hb
      rw [List.contains_cons] at h2
      have := (Bool.or_eq_false_iff.mp h2).1
      rw [← heq] at this
      simp at this

/-- `_extract_names_from_block` output has pairwise-distinct lowered
keys (it ends in the seen-set dedup). -/
theorem names_from_block_pairwise (b : String) :
    (_extract_names_from_block b).Pairwise (fun a b => strLower a ≠ strLower b) := by
  unfold _extract_names_from_block
  by_cases hb : b = ""
  · rw [if_pos hb]
    exact List.Pairwise.nil
  · rw [if_neg hb]
    exact dedupNames_pairwise _ []

/-- A strategy-3/4 name list is empty or a block extraction. -/
theorem party_step_shape (o : Option (List Char)) (fb : List String)
    (hfb : fb = [] ∨ ∃ b, fb = _extract_names_from_block b) :
    (match o with
     | some b => _extract_names_from_block (pyStrip (String.mk b))
     | none => fb) = []
    ∨ ∃ b, (match o with
     | some b => _extract_names_from_block (pyStrip (String.mk b))
     | none => fb) = _extract_names_from_block b := by
  cases o with
  | some b => exact Or.inr ⟨pyStrip (String.mk b), rfl⟩
  | none => exact hfb

/-- The strategy-4 fallback step preserves the block shape. -/
theorem party_cap_shape (x : List String) (o : Option (List Char))
    (hx : x = [] ∨ ∃ b, x = _extract_names_from_block b) :
    (if x = [] then
       (match o with
        | some b => _extract_names_from_block (pyStrip (String.mk b))
        | none => x)
     else x) = []
    ∨ ∃ b, (if x = [] then
       (match o with
        | some b => _extract_names_from_block (pyStrip (String.mk b))
        | none => x)
     else x) = _extract_names_from_block b := by
  by_cases h : x = []
  · rw [if_pos h]
    exact party_step_shape o x hx
  · rw [if_neg h]
    exact hx

/-- Strategies 2-4 return either one inline-versus pair of singletons or
a capped pair of block-shaped lists. -/
theorem partiesStage2_shape (h : List Char) (app1 resp1 : List String)
    (ha : app1 = [] ∨ ∃ b, app1 = _extract_names_from_block b)
    (hr : resp1 = [] ∨ ∃ b, resp1 = _extract_names_from_block b) :
    (∃ a r, a ≠ "" ∧ r ≠ "" ∧ partiesStage2 h app1 resp1 = ([a], [r]))
    ∨ (∃ xs ys, (xs = [] ∨ ∃ b, xs = _extract_names_from_block b)
        ∧ (ys = [] ∨ ∃ b, ys = _extract_names_from_block b)
        ∧ partiesStage2 h app1 resp1 = (xs.take 5, ys.take 3)) := by
  unfold partiesStage2
  dsimp only
  generalize s2Search h = s2v
  have hstage34 :
      (∃ a r, a ≠ "" ∧ r ≠ "" ∧ ((let lines := splitOnNl h
        let app3 := (lines.filterMap (s3MatchLine ["Petitioner", "Appellant"])).head?
        let resp3 := (lines.filterMap (s3MatchLine ["Respondent"])).head?
        let app4 := match app3 with
          | some b => _extract_names_from_block (pyStrip (String.mk b))
          | none => app1
        let resp4 := match resp3 with
          | some b => _extract_names_from_block (pyStrip (String.mk b))
          | none => resp1
        let app5 := if app4 = [] then
            (match s4Search ["Petitioner", "Appellant"] s4StopApp h with
             | some b => _extract_names_from_block (pyStrip (String.mk b))
             | none => app4)
          else app4
        let resp5 := if resp4 = [] then
            (match s4Search ["Respondent"] s4StopResp h with
             | some b => _extract_names_from_block (pyStrip (String.mk b))
             | none => resp4)
          else resp4
        (app5.take 5, resp5.take 3) : List String × List String)) = ([a], [r]))
      ∨ (∃ xs ys, (xs = [] ∨ ∃ b, xs = _extract_names_from_block b)
          ∧ (ys = [] ∨ ∃ b, ys = _extract_names_from_block b)
          ∧ (let lines := splitOnNl h
            let app3 := (lines.filterMap (s3MatchLine ["Petitioner", "Appellant"])).head?
            let resp3 := (lines.filterMap (s3MatchLine ["Respondent"])).head?
            let app4 := match app3 with
              | some b => _extract_names_from_block (pyStrip (String.mk b))
              | none => app1
            let resp4 := match resp3 with
              | some b => _extract_names_from_block (pyStrip (String.mk b))
              | none => resp1
            let app5 := if app4 = [] then
                (match s4Search ["Petitioner", "Appellant"] s4StopApp h with
                 | some b => _extract_names_from_block (pyStrip (String.mk b))
                 | none => app4)
              else app4
            let resp5 := if resp4 = [] then
                (match s4Search ["Respondent"] s4StopResp h with
                 | some b => _extract_names_from_block (pyStrip (String.mk b))
                 | none => resp4)
              else resp4
            (app5.take 5, resp5.take 3)) = (xs.take 5, ys.take 3)) := by
    right
    dsimp only
    refine ⟨_, _, ?_, ?_, rfl⟩
    · exact party_cap_shape _ _ (party_step_shape _ app1 ha)
    · exact party_cap_shape _ _ (party_step_shape _ resp1 hr)
  cases s2v with
  | none => exact hstage34
  | some g =>
    dsimp only
    by_cases happ : app1 = []
    · rw [if_pos happ]
      by_cases hg : _clean_party_chunk (pyStrip (String.mk g.1)) ≠ ""
          ∧ _clean_party_chunk (pyStrip (String.mk g.2)) ≠ ""
          ∧ 3 ≤ (_clean_party_chunk (pyStrip (String.mk g.1))).data.length
          ∧ 3 ≤ (_clean_party_chunk (pyStrip (String.mk g.2))).data.length
      · rw [if_pos hg]
        exact Or.inl ⟨_, _, hg.1, hg.2.1, rfl⟩
      · rw [if_neg hg]
        exact hstage34
    · rw [if_neg happ]
      exact hstage34

/-- Case analysis of `extract_parties`: empty header, uncapped
strategy-1 return, inline-versus singleton pair, or capped block pair. -/
theorem extract_parties_cases (h : String) (e : List (String × List String)) :
    extract_parties h e = ([], [])
    ∨ (∃ g, s1Search h.data = some g
        ∧ extract_parties h e
          = (_extract_names_from_block (pyStrip (String.mk g.1)),
             _extract_names_from_block (pyStrip (String.mk g.2))))
    ∨ (∃ a r, a ≠ "" ∧ r ≠ "" ∧ extract_parties h e = ([a], [r]))
    ∨ (∃ xs ys, (xs = [] ∨ ∃ b, xs = _extract_names_from_block b)
        ∧ (ys = [] ∨ ∃ b, ys = _extract_names_from_block b)
        ∧ extract_parties h e = (xs.take 5, ys.take 3)) := by
  by_cases hh : h = ""
  · left
    unfold extract_parties
    rw [if_pos hh]
  · unfold extract_parties
    rw [if_neg hh]
    dsimp only
    generalize s1Search h.data = s1v
    cases s1v with
    | none =>
      dsimp only
      rw [if_neg (by simp)]
      rcases partiesStage2_shape h.data [] [] (Or.inl rfl) (Or.inl rfl) with h2 | h2
      · exact Or.inr (Or.inr (Or.inl h2))
      · exact Or.inr (Or.inr (Or.inr h2))
    | some g =>
      dsimp only
      by_cases hgu : _extract_names_from_block (pyStrip (String.mk g.1)) ≠ []
          ∧ _extract_names_from_block (pyStrip (String.mk g.2)) ≠ []
      · rw [if_pos ⟨rfl, hgu.1, hgu.2⟩]
        exact Or.inr (Or.inl ⟨g, rfl, rfl⟩)
      · rw [if_neg (fun hc => hgu ⟨hc.2.1, hc.2.2⟩)]
        rcases partiesStage2_shape h.data _ _ (Or.inr ⟨_, rfl⟩) (Or.inr ⟨_, rfl⟩)
          with h2 | h2
        · exact Or.inr (Or.inr (Or.inl h2))
        · exact Or.inr (Or.inr (Or.inr h2))

/-- A block-shaped list has pairwise-distinct lowered names. -/
theorem shape_pairwise {xs : List String}
    (hx : xs = [] ∨ ∃ b, xs = _extract_names_from_block b) :
    xs.Pairwise (fun a b => strLower a ≠ strLower b) := by
  rcases hx with rfl | ⟨b, rfl⟩
  · exact List.Pairwise.nil
  · exact names_from_block_pairwise b

/-- C6 counterexample: a VERSUS-block header with six appellant names
returns all six — strategy 1 returns before the `[:5]`/`[:3]` caps are
applied. -/
theorem versus_block_returns_uncapped :
    ((extract_parties
        "AAAA BBBB, CCCC DDDD, EEEE FFFF, GGGG HHHH, IIII JJJJ, KKKK LLLL\nVERSUS\nMMMM NNNN\n"
        []).1).length = 6 := by decide

/-- C6 (amended).  Both returned party lists are order-preserving
deduplicated (pairwise-distinct lowercased names); and the 5/3 caps hold
unless the strategy-1 VERSUS-block pattern matched with both blocks
yielding names, in which case both lists are returned uncapped. -/
theorem extract_parties_caps_dedup :
    (∀ (h : String) (e : List (String × List String)),
        ((extract_parties h e).1.length ≤ 5 ∧ (extract_parties h e).2.length ≤ 3)
        ∨ ∃ g, s1Search h.data = some g
            ∧ extract_parties h e
              = (_extract_names_from_block (pyStrip (String.mk g.1)),
                 _extract_names_from_block (pyStrip (String.mk g.2)))) ∧
    (∀ (h : String) (e : List (String × List String)),
        (extract_parties h e).1.Pairwise (fun a b => strLower a ≠ strLower b)
        ∧ (extract_parties h e).2.Pairwise (fun a b => strLower a ≠ strLower b)) := by
  constructor
  · intro h e
    rcases extract_parties_cases h e with hc | ⟨g, hg, hc⟩ | ⟨a, r, _, _, hc⟩
        | ⟨xs, ys, _, _, hc⟩
    · left
      rw [hc]
      exact ⟨by simp, by simp⟩
    · right
      exact ⟨g, hg, hc⟩
    · left
      rw [hc]
      exact ⟨by simp, by simp⟩
    · left
      rw [hc]
      constructor
      · simp [List.length_take]
      · simp [List.length_take]
  · intro h e
    rcases extract_parties_cases h e with hc | ⟨g, _, hc⟩ | ⟨a, r, _, _, hc⟩
        | ⟨xs, ys, hxs, hys, hc⟩ <;> rw [hc]
    · exact ⟨List.Pairwise.nil, List.Pairwise.nil⟩
    · exact ⟨names_from_block_pairwise _, names_from_block_pairwise _⟩
    · exact ⟨by simp, by simp⟩
    · exact ⟨List.Pairwise.sublist (List.take_sublist _ _) (shape_pairwise hxs),
             List.Pairwise.sublist (List.take_sublist _ _) (shape_pairwise hys)⟩

/-! ### Fusion idempotence (C7) -/

/-- `contains` distributes over append. -/
theorem containsAppend (p q : List String) (x : String) :
    (p ++ q).contains x = (p.contains x || q.contains x) := by
  induction p with
  | nil => rfl
  | cons a p' ih =>
    rw [List.cons_append, List.contains_cons, List.contains_cons, ih]
    cases x == a <;> rfl

/-- Membership gives `contains`. -/
theorem contains_of_mem (l : List String) (x : String) (h : x ∈ l) :
    l.contains x = true := by
  induction l with
  | nil => cases h
  | cons a l' ih =>
    rw [List.contains_cons]
    rcases List.mem_cons.mp h with rfl | h2
    · simp
    · rw [ih h2]
      simp

/-- The exact dedup depends on the seen set only through membership. -/
theorem dedupAux_congr (l : List String) :
    ∀ (s1 s2 : List String), (∀ x, s1.contains x = s2.contains x) →
      dedupAux s1 l = dedupAux s2 l := by
  induction l with
  | nil => intro s1 s2 _; rfl
  | cons x rest ih =>
    intro s1 s2 h
    rw [dedupAux, dedupAux, h x]
    by_cases hc : s2.contains x = true
    · rw [if_pos hc, if_pos hc]
      exact ih s1 s2 h
    · rw [if_neg hc, if_neg hc]
      have h2 : ∀ y, (x :: s1).contains y = (x :: s2).contains y := by
        intro y
        rw [List.contains_cons, List.contains_cons, h y]
      rw [ih (x :: s1) (x :: s2) h2]

/-- The exact dedup of an all-seen list is empty. -/
theorem dedupAux_vanish (l : List String) :
    ∀ (s : List String), (∀ x ∈ l, s.contains x = true) → dedupAux s l = [] := by
  induction l with
  | nil => intro s _; rfl
  | cons x rest ih =>
    intro s h
    rw [dedupAux, if_pos (h x (List.mem_cons_self _ _))]
    exact ih s (fun y hy => h y (List.mem_cons_of_mem _ hy))

/-- Splitting the exact dedup over an append: the tail is deduplicated
against any seen set whose membership is the first part's union. -/
theorem dedupAux_append_mem (Q : List String) :
    ∀ (P s s' : List String),
      (∀ x, s'.contains x = (s.contains x || P.contains x)) →
      dedupAux s (P ++ Q) = dedupAux s P ++ dedupAux s' Q := by
  intro P
  induction P with
  | nil =>
    intro s s' h
    have h' : ∀ x, s.contains x = s'.contains x := by
      intro x
      rw [h x]
      cases hsx : s.contains x <;> rfl
    rw [List.nil_append, dedupAux_congr Q s s' h']
    rfl
  | cons x P' ih =>
    intro s s' h
    rw [List.cons_append, dedupAux, dedupAux]
    by_cases hc : s.contains x = true
    · rw [if_pos hc, if_pos hc]
      apply ih s s'
      intro y
      rw [h y, List.contains_cons]
      by_cases hyx : (y == x) = true
      · have hyx' : y = x := eq_of_beq hyx
        subst hyx'
        rw [hc]
        simp
      · have hyx' : (y == x) = false := Bool.eq_false_iff.mpr hyx
        rw [hyx', Bool.false_or]
    · rw [if_neg hc, if_neg hc, List.cons_append]
      have h2 : ∀ y, s'.contains y = ((x :: s).contains y || P'.contains y) := by
        intro y
        rw [h y, List.contains_cons, List.contains_cons]
        cases y == x <;> cases s.contains y <;> cases P'.contains y <;> rfl
      rw [ih (x :: s) s' h2]

/-- Doubling every block leaves the exact dedup unchanged. -/
theorem dedupAux_blocks (bs : List (List String)) :
    ∀ (s : List String),
      dedupAux s ((bs.map (fun b => b ++ b)).flatten) = dedupAux s bs.flatten := by
  induction bs with
  | nil => intro s; rfl
  | cons A bs' ih =>
    intro s
    rw [List.map_cons, List.flatten_cons, List.flatten_cons, List.append_assoc]
    have hmem1 : ∀ x, (A ++ s).contains x = (s.contains x || A.contains x) := by
      intro x
      rw [containsAppend]
      cases A.contains x <;> cases s.contains x <;> rfl
    rw [dedupAux_append_mem (A ++ (bs'.map (fun b => b ++ b)).flatten) A s (A ++ s) hmem1]
    have hmem2 : ∀ x, (A ++ s).contains x = ((A ++ s).contains x || A.contains x) := by
      intro x
      rw [containsAppend]
      cases A.contains x <;> cases s.contains x <;> rfl
    rw [dedupAux_append_mem ((bs'.map (fun b => b ++ b)).flatten) A (A ++ s) (A ++ s) hmem2]
    rw [dedupAux_vanish A (A ++ s) (fun x hx => by
      rw [containsAppend, contains_of_mem A x hx]
      rfl)]
    rw [List.nil_append, ih (A ++ s)]
    rw [dedupAux_append_mem bs'.flatten A s (A ++ s) hmem1]

/-- The clean-fold seen set only grows. -/
theorem cleanFold_seen_mono (key : String) (l : List String) :
    ∀ (s : List String) (x : String), s.contains x = true →
      (cleanFold key s l).2.contains x = true := by
  induction l with
  | nil => intro s x h; exact h
  | cons v rest ih =>
    intro s x h
    rw [cleanFold]
    cases cleanStep key v with
    | none => exact ih s x h
    | some v2 =>
      dsimp only
      by_cases hc : s.contains (strLower v2) = true
      · rw [if_pos hc]
        exact ih s x h
      · rw [if_neg hc]
        dsimp only
        exact ih (strLower v2 :: s) x (by rw [List.contains_cons, h]; simp)

/-- After the clean-fold, every processed value's lowered clean text is
in the final seen set. -/
theorem cleanFold_seen_sup (key : String) (l : List String) :
    ∀ (s : List String) (v v2 : String), v ∈ l → cleanStep key v = some v2 →
      (cleanFold key s l).2.contains (strLower v2) = true := by
  induction l with
  | nil => intro s v v2 hv _; cases hv
  | cons u rest ih =>
    intro s v v2 hv hcs
    rw [cleanFold]
    rcases List.mem_cons.mp hv with rfl | hvrest
    · rw [hcs]
      dsimp only
      by_cases hc : s.contains (strLower v2) = true
      · rw [if_pos hc]
        exact cleanFold_seen_mono key rest s _ hc
      · rw [if_neg hc]
        dsimp only
        exact cleanFold_seen_mono key rest _ _ (by rw [List.contains_cons]; simp)
    · cases cleanStep key u with
      | none => exact ih s v v2 hvrest hcs
      | some u2 =>
        dsimp only
        by_cases hc : s.contains (strLower u2) = true
        · rw [if_pos hc]
          exact ih s v v2 hvrest hcs
        · rw [if_neg hc]
          dsimp only
          exact ih _ v v2 hvrest hcs

/-- The clean-fold of an all-seen list keeps nothing and leaves the seen
set unchanged. -/
theorem cleanFold_vanish (key : String) (l : List String) :
    ∀ (s : List String),
      (∀ v ∈ l, ∀ v2, cleanStep key v = some v2 → s.contains (strLower v2) = true) →
      cleanFold key s l = ([], s) := by
  induction l with
  | nil => intro s _; rfl
  | cons v rest ih =>
    intro s h
    rw [cleanFold]
    cases hcs : cleanStep key v with
    | none => exact ih s (fun u hu => h u (List.mem_cons_of_mem _ hu))
    | some v2 =>
      dsimp only
      rw [if_pos (h v (List.mem_cons_self _ _) v2 hcs)]
      exact ih s (fun u hu => h u (List.mem_cons_of_mem _ hu))

/-- Doubling every block leaves the clean-fold unchanged. -/
theorem cleanFold_blocks (key : String) (bs : List (List String)) :
    ∀ (s : List String),
      cleanFold key s ((bs.map (fun b => b ++ b)).flatten) = cleanFold key s bs.flatten := by
  induction bs with
  | nil => intro s; rfl
  | cons A bs' ih =>
    intro s
    rw [List.map_cons, List.flatten_cons, List.flatten_cons, List.append_assoc]
    rw [cleanFold_append key A (A ++ (bs'.map (fun b => b ++ b)).flatten) s]
    rw [cleanFold_append key A ((bs'.map (fun b => b ++ b)).flatten) ((cleanFold key s A).2)]
    rw [cleanFold_vanish key A ((cleanFold key s A).2)
      (fun v hv v2 hcs => cleanFold_seen_sup key A s v v2 hv hcs)]
    dsimp only
    rw [ih ((cleanFold key s A).2)]
    rw [cleanFold_append key A bs'.flatten s]
    simp

/-- Doubling each input block of a key's candidate items leaves the
per-key fusion unchanged. -/
theorem processKey_dup (key : String) (x y : List (String × String)) :
    processKey key (x ++ (x ++ (y ++ y))) = processKey key (x ++ y) := by
  unfold processKey
  dsimp only
  simp only [List.filter_append, List.map_append]
  set A := (List.filter (fun it => bucketOf it.2 = 0) x).map Prod.fst with hA
  set B := (List.filter (fun it => bucketOf it.2 = 0) y).map Prod.fst with hB
  set C := (List.filter (fun it => bucketOf it.2 = 1) x).map Prod.fst with hC
  set D := (List.filter (fun it => bucketOf it.2 = 1) y).map Prod.fst with hD
  set E := (List.filter (fun it => bucketOf it.2 = 2) x).map Prod.fst with hE
  set F := (List.filter (fun it => bucketOf it.2 = 2) y).map Prod.fst with hF
  by_cases hk : key = "precedent"
  · rw [if_pos hk, if_pos hk]
    have h6 := dedupAux_blocks [A, B, C, D, E, F] []
    simp only [List.map_cons, List.map_nil, List.flatten_cons, List.flatten_nil,
      List.append_nil] at h6
    simp only [List.append_assoc] at h6 ⊢
    have hdp : _deduplicate_precedents
        (A ++ (A ++ (B ++ (B ++ (C ++ (C ++ (D ++ (D ++ (E ++ (E ++ (F ++ F)))))))))))
        = _deduplicate_precedents (A ++ (B ++ (C ++ (D ++ (E ++ F))))) := by
      unfold _deduplicate_precedents
      rw [h6]
    rw [hdp]
  · rw [if_neg hk, if_neg hk]
    have h6 := cleanFold_blocks key [A, B, C, D, E, F]
    have h6' := h6 []
    simp only [List.map_cons, List.map_nil, List.flatten_cons, List.flatten_nil,
      List.append_nil] at h6'
    simp only [List.append_assoc] at h6' ⊢
    rw [h6']

/-- Folding one more entry into the accumulator. -/
theorem accumEntries_concat (l : List (String × String × String))
    (e : String × String × String) :
    accumEntries (l ++ [e]) = accumAdd (accumEntries l) e.1 (e.2.1, e.2.2) := by
  unfold accumEntries
  rw [List.foldl_append]
  rfl

/-- The exact dedup appends a fresh final element, drops a stale one. -/
theorem dedupAux_concat (ks : List String) (k : String) :
    ∀ (seen : List String), dedupAux seen (ks ++ [k])
      = dedupAux seen ks ++ (if (seen.contains k || ks.contains k) = true then [] else [k]) := by
  induction ks with
  | nil =>
    intro seen
    rw [List.nil_append]
    by_cases hc : seen.contains k = true
    · have hL : dedupAux seen [k] = [] := by
        rw [dedupAux, if_pos hc]
        rfl
      have hcond : (seen.contains k || List.contains [] k) = true := by
        rw [hc]
        rfl
      rw [hL, if_pos hcond]
      rfl
    · have hL : dedupAux seen [k] = [k] := by
        rw [dedupAux, if_neg hc]
        rfl
      have hc' : seen.contains k = false := Bool.eq_false_iff.mpr hc
      have hcond : (seen.contains k || List.contains [] k) = false := by
        rw [hc']
        rfl
      rw [hL, if_neg (by rw [hcond]; exact Bool.false_ne_true)]
      rfl
  | cons a ks' ih =>
    intro seen
    rw [List.cons_append, dedupAux, dedupAux]
    by_cases hc : seen.contains a = true
    · rw [if_pos hc, if_pos hc, ih seen]
      have hcond : (seen.contains k || ks'.contains k)
          = (seen.contains k || (a :: ks').contains k) := by
        rw [List.contains_cons]
        by_cases hka : (k == a) = true
        · have hka' : k = a := eq_of_beq hka
          subst hka'
          rw [hc]
          rfl
        · have hka' : (k == a) = false := Bool.eq_false_iff.mpr hka
          rw [hka', Bool.false_or]
      rw [hcond]
    · rw [if_neg hc, if_neg hc, ih (a :: seen), List.cons_append]
      have hcond : ((a :: seen).contains k || ks'.contains k)
          = (seen.contains k || (a :: ks').contains k) := by
        rw [List.contains_cons, List.contains_cons]
        cases k == a <;> cases seen.contains k <;> cases ks'.contains k <;> rfl
      rw [hcond]

/-- Dedup output elements come from the input and were unseen. -/
theorem dedupAux_sub (ks : List String) :
    ∀ (seen : List String) (x : String), x ∈ dedupAux seen ks →
      x ∈ ks ∧ seen.contains x = false := by
  induction ks with
  | nil => intro seen x hx; cases hx
  | cons k rest ih =>
    intro seen x hx
    by_cases hc : seen.contains k = true
    · rw [dedupAux, if_pos hc] at hx
      obtain ⟨h1, h2⟩ := ih seen x hx
      exact ⟨List.mem_cons_of_mem _ h1, h2⟩
    · rw [dedupAux, if_neg hc] at hx
      rcases List.mem_cons.mp hx with rfl | hx2
      · exact ⟨List.mem_cons_self _ _, Bool.eq_false_iff.mpr hc⟩
      · obtain ⟨h1, h2⟩ := ih (k :: seen) x hx2
        rw [List.contains_cons] at h2
        exact ⟨List.mem_cons_of_mem _ h1, (Bool.or_eq_false_iff.mp h2).2⟩

/-- Unseen input elements survive the dedup. -/
theorem dedupAux_mem_of (ks : List String) :
    ∀ (seen : List String) (x : String), x ∈ ks → seen.contains x = false →
      x ∈ dedupAux seen ks := by
  induction ks with
  | nil => intro seen x hx _; cases hx
  | cons k rest ih =>
    intro seen x hx hs
    rcases List.mem_cons.mp hx with rfl | hx2
    · rw [dedupAux, if_neg (by rw [hs]; exact fun hcontra => nomatch hcontra)]
      exact List.mem_cons_self _ _
    · by_cases hc : seen.contains k = true
      · rw [dedupAux, if_pos hc]
        exact ih seen x hx2 hs
      · rw [dedupAux, if_neg hc]
        by_cases hxk : x = k
        · subst hxk
          exact List.mem_cons_self _ _
        · refine List.mem_cons_of_mem _ (ih (k :: seen) x hx2 ?_)
          rw [List.contains_cons, hs]
          have hb : (x == k) = false := by
            simp [hxk]
          rw [hb]
          rfl

/-- The exact dedup output has no duplicates. -/
theorem dedupAux_nodup (ks : List String) :
    ∀ (seen : List String), (dedupAux seen ks).Nodup := by
  induction ks with
  | nil => intro seen; exact List.Pairwise.nil
  | cons k rest ih =>
    intro seen
    by_cases hc : seen.contains k = true
    · rw [dedupAux, if_pos hc]
      exact ih seen
    · rw [dedupAux, if_neg hc]
      refine List.Pairwise.cons ?_ (ih _)
      intro b hb
      have h2 := (dedupAux_sub rest (k :: seen) b hb).2
      rw [List.contains_cons] at h2
      have h3 := (Bool.or_eq_false_iff.mp h2).1
      intro heq
      subst heq
      simp at h3

/-- Appending an item under a key absent from a mapped key list. -/
theorem accumAdd_map_not_mem (f : String → List (String × String)) (key : String)
    (item : String × String) (kl : List String) (h : key ∉ kl) :
    accumAdd (kl.map (fun k => (k, f k))) key item
      = kl.map (fun k => (k, f k)) ++ [(key, [item])] := by
  induction kl with
  | nil => rfl
  | cons k0 kl' ih =>
    rw [List.map_cons, accumAdd]
    rw [if_neg (fun he => h (by rw [← he]; exact List.mem_cons_self k0 kl'))]
    rw [ih (fun hm => h (List.mem_cons_of_mem _ hm))]
    rfl

/-- Appending an item under a key present in a duplicate-free mapped key
list updates exactly that key's value. -/
theorem accumAdd_map_mem (f : String → List (String × String)) (key : String)
    (item : String × String) (kl : List String) (hnd : kl.Nodup) (h : key ∈ kl) :
    accumAdd (kl.map (fun k => (k, f k))) key item
      = kl.map (fun k => (k, if k = key then f k ++ [item] else f k)) := by
  induction kl with
  | nil => cases h
  | cons k0 kl' ih =>
    obtain ⟨hk0, hnd'⟩ := List.nodup_cons.mp hnd
    rw [List.map_cons, List.map_cons, accumAdd]
    by_cases he : k0 = key
    · rw [if_pos he, if_pos he]
      subst he
      congr 1
      apply List.map_congr_left
      intro a ha
      rw [if_neg (fun hcontra => hk0 (by rw [← hcontra]; exact ha))]
    · rw [if_neg he, if_neg he]
      rcases List.mem_cons.mp h with rfl | h2
      · exact absurd rfl he
      · rw [ih hnd' h2]

/-- A key absent from the firsts yields an empty filter. -/
theorem filter_key_nil (key : String) (l : List (String × String × String))
    (h : (l.map Prod.fst).contains key = false) :
    l.filter (fun e => e.1 = key) = [] := by
  induction l with
  | nil => rfl
  | cons e l' ih =>
    rw [List.map_cons, List.contains_cons] at h
    obtain ⟨h1, h2⟩ := Bool.or_eq_false_iff.mp h
    rw [List.filter_cons, if_neg ?hcond]
    · exact ih h2
    · intro hc
      rw [decide_eq_true_eq] at hc
      rw [hc] at h1
      simp at h1

/-- The accumulator explicitly: keys in first-occurrence order, each
paired with its items in stream order. -/
theorem accumEntries_spec (l : List (String × String × String)) :
    accumEntries l = (dedupAux [] (l.map Prod.fst)).map
      (fun k => (k, (l.filter (fun e => e.1 = k)).map (fun e => (e.2.1, e.2.2)))) := by
  induction l using List.reverseRecOn with
  | nil => rfl
  | append_singleton l e ih =>
    rw [accumEntries_concat, ih]
    simp only [List.map_append, List.map_cons, List.map_nil]
    rw [dedupAux_concat (l.map Prod.fst) e.1 []]
    have hnilc : (List.contains [] e.1 || (l.map Prod.fst).contains e.1)
        = (l.map Prod.fst).contains e.1 := rfl
    rw [hnilc]
    by_cases hmem : (l.map Prod.fst).contains e.1 = true
    · rw [if_pos hmem, List.append_nil]
      have hk : e.1 ∈ dedupAux [] (l.map Prod.fst) :=
        dedupAux_mem_of (l.map Prod.fst) [] e.1 (by simpa using hmem) rfl
      rw [accumAdd_map_mem _ e.1 (e.2.1, e.2.2) _ (dedupAux_nodup _ []) hk]
      apply List.map_congr_left
      intro k hkmem
      rw [List.filter_append, List.map_append]
      by_cases hke : k = e.1
      · rw [if_pos hke]
        subst hke
        congr 1
        simp
      · rw [if_neg hke]
        have hfe : List.filter (fun e' => e'.1 = k) [e] = [] := by
          rw [List.filter_cons, if_neg (by
            intro hc
            rw [decide_eq_true_eq] at hc
            exact hke hc.symm)]
          rfl
        rw [hfe, List.map_nil, List.append_nil]
    · rw [if_neg hmem]
      have hnm : e.1 ∉ dedupAux [] (l.map Prod.fst) := by
        intro hcontra
        have := (dedupAux_sub (l.map Prod.fst) [] e.1 hcontra).1
        exact hmem (contains_of_mem _ _ this)
      rw [accumAdd_map_not_mem _ e.1 (e.2.1, e.2.2) _ hnm, List.map_append]
      congr 1
      · apply List.map_congr_left
        intro k hkmem
        have hkne : k ≠ e.1 := by
          intro hcontra
          subst hcontra
          exact hnm hkmem
        rw [List.filter_append, List.map_append]
        have hfe : List.filter (fun e' => e'.1 = k) [e] = [] := by
          rw [List.filter_cons, if_neg (by
            intro hc
            rw [decide_eq_true_eq] at hc
            exact hkne hc.symm)]
          rfl
        rw [hfe, List.map_nil, List.append_nil]
      · rw [List.map_cons, List.map_nil]
        have hfl : l.filter (fun e' => e'.1 = e.1) = [] :=
          filter_key_nil e.1 l (Bool.eq_false_iff.mpr hmem)
        rw [List.filter_append, hfl, List.nil_append]
        simp

/-- C7.  Fusion idempotence: merging the duplicated candidate streams
(each candidate supplied twice) yields the same fused per-label output
as a single merge. -/
theorem merge_entities_idempotent (b s : List (String × String)) :
    merge_entities (b ++ b) (s ++ s) = merge_entities b s := by
  have hfinal0 :
      (accumEntries ((b.filterMap bertEntry ++ b.filterMap bertEntry) ++
          (s.filterMap spacyEntry ++ s.filterMap spacyEntry))).map
        (fun kv => (kv.1, processKey kv.1 kv.2))
      = (accumEntries (b.filterMap bertEntry ++ s.filterMap spacyEntry)).map
          (fun kv => (kv.1, processKey kv.1 kv.2)) := by
    rw [accumEntries_spec, accumEntries_spec, List.map_map, List.map_map]
    simp only [List.map_append]
    have hkeys := dedupAux_blocks [(b.filterMap bertEntry).map Prod.fst,
      (s.filterMap spacyEntry).map Prod.fst] []
    simp only [List.map_cons, List.map_nil, List.flatten_cons, List.flatten_nil,
      List.append_nil] at hkeys
    simp only [List.append_assoc] at hkeys ⊢
    rw [hkeys]
    apply List.map_congr_left
    intro k hk
    simp only [Function.comp]
    simp only [List.filter_append, List.map_append]
    exact congrArg (fun v => (k, v)) (processKey_dup k _ _)
  unfold merge_entities
  dsimp only
  rw [List.filterMap_append, List.filterMap_append, hfinal0]

/-! ### Record non-emptiness (C2 amended) -/

/-- Uppercasing preserves non-whitespace. -/
theorem isPyWs_toUpper_false (c : Char) (h : isPyWs c = false) :
    isPyWs c.toUpper = false := by
  unfold Char.toUpper
  dsimp only
  by_cases hr : c.toNat ≥ 97 ∧ c.toNat ≤ 122
  · rw [if_pos hr]
    have hvalid : (c.toNat - 32).isValidChar := Or.inl (by omega)
    have hval : (Char.ofNat (c.toNat - 32)).toNat = c.toNat - 32 := by
      rw [Char.ofNat, dif_pos hvalid]
      rfl
    have hne : ∀ (d : Char), d.toNat < 65 → (Char.ofNat (c.toNat - 32) == d) = false := by
      intro d hd
      apply beq_eq_false_iff_ne.mpr
      intro he
      rw [← he, hval] at hd
      omega
    unfold isPyWs
    rw [hne ' ' (by decide), hne '\t' (by decide), hne '\n' (by decide),
      hne '\r' (by decide), hne '\x0b' (by decide), hne '\x0c' (by decide)]
    rfl
  · rw [if_neg hr]
    exact h

/-- The head of a `dropWhile` output fails the test. -/
theorem dropWhile_head_not (p : Char → Bool) (l : List Char) :
    ∀ c rest, l.dropWhile p = c :: rest → p c = false := by
  induction l with
  | nil => intro c rest h; simp at h
  | cons a l' ih =>
    intro c rest h
    rw [List.dropWhile_cons] at h
    by_cases hp : p a = true
    · rw [if_pos hp] at h
      exact ih c rest h
    · rw [if_neg hp] at h
      cases h
      exact Bool.eq_false_iff.mpr hp

/-- The head of a stripped list is not whitespace. -/
theorem pyStripChars_head (l : List Char) (c : Char) (rest : List Char)
    (h : pyStripChars l = c :: rest) : isPyWs c = false := by
  unfold pyStripChars at h
  obtain ⟨t, ht⟩ := List.dropWhile_suffix (l := (l.dropWhile isPyWs).reverse) isPyWs
  have hSne : (l.dropWhile isPyWs).reverse.dropWhile isPyWs ≠ [] := by
    intro hnil
    rw [hnil] at h
    simp at h
  have hlast : ((l.dropWhile isPyWs).reverse.dropWhile isPyWs).getLast?
      = (l.dropWhile isPyWs).head? := by
    rw [← List.getLast?_append_of_ne_nil t hSne, ht, List.getLast?_reverse]
  have hhead : ((l.dropWhile isPyWs).reverse.dropWhile isPyWs).reverse.head?
      = (l.dropWhile isPyWs).head? := by
    rw [List.head?_reverse, hlast]
  rw [h] at hhead
  cases hd : l.dropWhile isPyWs with
  | nil => rw [hd] at hhead; simp at hhead
  | cons c0 r0 =>
    rw [hd] at hhead
    simp only [List.head?_cons, Option.some.injEq] at hhead
    rw [hhead]
    exact dropWhile_head_not isPyWs l c0 r0 hd

/-- The last element of a non-empty stripped list is not whitespace. -/
theorem pyStripChars_last (l : List Char) (w : Char)
    (h : (pyStripChars l).getLast? = some w) : isPyWs w = false := by
  unfold pyStripChars at h
  rw [List.getLast?_reverse] at h
  cases hd : (l.dropWhile isPyWs).reverse.dropWhile isPyWs with
  | nil => rw [hd] at h; simp at h
  | cons c0 r0 =>
    rw [hd] at h
    simp only [List.head?_cons, Option.some.injEq] at h
    rw [← h]
    exact dropWhile_head_not isPyWs _ c0 r0 hd

/-- A list containing a non-whitespace character strips to non-empty. -/
theorem pyStripChars_ne_nil (l : List Char) (c : Char) (hc : c ∈ l)
    (hws : isPyWs c = false) : pyStripChars l ≠ [] := by
  unfold pyStripChars
  intro h
  rw [List.reverse_eq_nil_iff, List.dropWhile_eq_nil_iff] at h
  have hc1 : c ∈ l.dropWhile isPyWs := by
    have := List.takeWhile_append_dropWhile isPyWs l
    rw [← this] at hc
    rcases List.mem_append.mp hc with hmem | hmem
    · exact absurd (List.mem_takeWhile_imp hmem) (by rw [hws]; exact Bool.false_ne_true)
    · exact hmem
  have hc2 : c ∈ (l.dropWhile isPyWs).reverse := List.mem_reverse.mpr hc1
  have := h c hc2
  rw [hws] at this
  exact Bool.false_ne_true this

/-- `contains` distributes over nothing: kept elements of the name dedup
come from the input. -/
theorem dedupNames_sub (xs : List String) :
    ∀ (seen : List String) (x : String), x ∈ dedupNames seen xs → x ∈ xs := by
  induction xs with
  | nil => intro seen x hx; cases hx
  | cons n rest ih =>
    intro seen x hx
    by_cases hc : seen.contains (strLower n) = true
    · rw [dedupNames, if_pos hc] at hx
      exact List.mem_cons_of_mem _ (ih seen x hx)
    · rw [dedupNames, if_neg hc] at hx
      rcases List.mem_cons.mp hx with rfl | hx2
      · exact List.mem_cons_self _ _
      · exact List.mem_cons_of_mem _ (ih _ x hx2)

/-- Every name kept from a block is non-empty. -/
theorem names_from_block_ne (b : String) :
    ∀ n ∈ _extract_names_from_block b, n ≠ "" := by
  unfold _extract_names_from_block
  by_cases hb : b = ""
  · rw [if_pos hb]
    intro n hn
    cases hn
  · rw [if_neg hb]
    intro n hn
    have hn2 := dedupNames_sub _ _ _ hn
    rw [List.mem_filterMap] at hn2
    obtain ⟨p, _, hp⟩ := hn2
    dsimp only at hp
    by_cases hc1 : _clean_party_chunk (String.mk p) ≠ ""
        ∧ 3 ≤ (_clean_party_chunk (String.mk p)).data.length
    · rw [if_pos hc1] at hp
      split at hp
      · exact absurd hp (by simp)
      · split at hp
        · exact absurd hp (by simp)
        · rw [Option.some.injEq] at hp
          rw [← hp]
          exact hc1.1
    · rw [if_neg hc1] at hp
      exact absurd hp (by simp)

/-- The split driver never returns an empty segment list. -/
theorem splitAtSep_ne_nil (sep : List Char → Option (List Char)) :
    ∀ (fuel : Nat) (acc l : List Char), splitAtSep sep acc l fuel ≠ [] := by
  intro fuel
  induction fuel with
  | zero =>
    intro acc l
    cases l <;> simp [splitAtSep]
  | succ f ih =>
    intro acc l
    cases l with
    | nil => simp [splitAtSep]
    | cons c cs =>
      rw [splitAtSep]
      cases sep (c :: cs) with
      | some rest => simp
      | none => exact ih (c :: acc) cs

/-- The first segment of the split extends the accumulator. -/
theorem splitAtSep_head (sep : List Char → Option (List Char)) :
    ∀ (fuel : Nat) (acc l : List Char),
      ∃ t, (splitAtSep sep acc l fuel).head? = some (acc.reverse ++ t) := by
  intro fuel
  induction fuel with
  | zero =>
    intro acc l
    cases l with
    | nil => exact ⟨[], by simp [splitAtSep]⟩
    | cons c cs => exact ⟨c :: cs, by simp [splitAtSep]⟩
  | succ f ih =>
    intro acc l
    cases l with
    | nil => exact ⟨[], by simp [splitAtSep]⟩
    | cons c cs =>
      rw [splitAtSep]
      cases sep (c :: cs) with
      | some rest => exact ⟨[], by simp⟩
      | none =>
        obtain ⟨t, ht⟩ := ih (c :: acc) cs
        refine ⟨c :: t, ?_⟩
        rw [ht]
        simp

/-- The case-name versus separator cannot match at a non-whitespace
position. -/
theorem versusSepAppAt_not_ws (c : Char) (cs : List Char) (h : isPyWs c = false) :
    versusSepAppAt (c :: cs) = none := by
  simp [versusSepAppAt, h]

/-- When the case-name versus separator matches, the rest is a suffix:
an empty rest means the text ended in whitespace, and a non-empty rest
ends where the text ends. -/
theorem versusSepAppAt_spec (suf rest : List Char) (h : versusSepAppAt suf = some rest) :
    (rest = [] → ∃ w, suf.getLast? = some w ∧ isPyWs w = true)
    ∧ (rest ≠ [] → rest.getLast? = suf.getLast?) := by
  match suf with
  | [] => exact absurd h (by simp [versusSepAppAt])
  | c :: cs =>
    rw [versusSepAppAt] at h
    by_cases hc : isPyWs c = true
    case neg =>
      rw [if_neg hc] at h
      exact absurd h (by simp)
    rw [if_pos hc] at h
    cases hdw : cs.dropWhile isPyWs with
    | nil =>
      rw [hdw] at h
      exact absurd h (by simp)
    | cons v r2 =>
      rw [hdw] at h
      dsimp only at h
      by_cases hv : (v == 'v' || v == 'V') = true
      case neg =>
        rw [if_neg hv] at h
        exact absurd h (by simp)
      rw [if_pos hv] at h
      have hcs : cs = cs.takeWhile isPyWs ++ (v :: r2) := by
        conv_lhs => rw [← List.takeWhile_append_dropWhile isPyWs cs]
        rw [hdw]
      split at h
      next w r4 heq =>
        split at h
        next hw =>
          rw [Option.some.injEq] at h
          have hlsuf : (c :: cs).getLast? = (v :: r2).getLast? := by
            conv_lhs => rw [hcs]
            rw [show (c :: (cs.takeWhile isPyWs ++ (v :: r2)))
                = (c :: cs.takeWhile isPyWs) ++ (v :: r2) from rfl]
            exact List.getLast?_append_cons _ v r2
          have hr2last : (v :: r2).getLast? = (w :: r4).getLast? := by
            split at heq
            next t =>
              subst heq
              rw [show (v :: '.' :: w :: r4) = [v, '.'] ++ (w :: r4) from rfl]
              exact List.getLast?_append_cons _ w r4
            next =>
              rw [heq]
              rw [show (v :: w :: r4) = [v] ++ (w :: r4) from rfl]
              exact List.getLast?_append_cons _ w r4
          have hsuflast : (c :: cs).getLast? = (w :: r4).getLast? := by
            rw [hlsuf, hr2last]
          constructor
          · intro hrest
            rw [← h] at hrest
            rw [List.dropWhile_eq_nil_iff] at hrest
            cases hr4 : r4 with
            | nil =>
              refine ⟨w, ?_, hw⟩
              rw [hsuflast, hr4]
              rfl
            | cons x t =>
              have hr4ne : r4 ≠ [] := by rw [hr4]; exact List.cons_ne_nil x t
              cases hgl : r4.getLast? with
              | none => exact absurd (List.getLast?_eq_none_iff.mp hgl) hr4ne
              | some wl =>
                refine ⟨wl, ?_, hrest wl (List.mem_of_getLast?_eq_some hgl)⟩
                rw [hsuflast,
                  show (w :: r4) = [w] ++ r4 from rfl,
                  List.getLast?_append_of_ne_nil _ hr4ne, hgl]
          · intro hrest
            have hr4ne : r4 ≠ [] := by
              intro hcontra
              rw [hcontra] at h
              exact hrest h.symm
            have hr4dec : r4 = r4.takeWhile isPyWs ++ rest := by
              conv_lhs => rw [← List.takeWhile_append_dropWhile isPyWs r4]
              rw [h]
            rw [hsuflast, show (w :: r4) = [w] ++ r4 from rfl,
              List.getLast?_append_of_ne_nil _ hr4ne]
            conv_rhs => rw [hr4dec]
            exact (List.getLast?_append_of_ne_nil _ hrest).symm
        next hw =>
          exact absurd h (by simp)
      next =>
        exact absurd h (by simp)

/-- The last segment of the split ends where the input ends (or the
input ends in whitespace swallowed by a final separator match). -/
theorem splitAtSep_getLast (sep : List Char → Option (List Char))
    (hsep : ∀ suf rest, sep suf = some rest →
      (rest = [] → ∃ w, suf.getLast? = some w ∧ isPyWs w = true)
      ∧ (rest ≠ [] → rest.getLast? = suf.getLast?)) :
    ∀ (fuel : Nat) (acc l : List Char), acc.reverse ++ l ≠ [] →
      ∃ seg, (splitAtSep sep acc l fuel).getLast? = some seg
        ∧ (seg = [] → ∃ w, (acc.reverse ++ l).getLast? = some w ∧ isPyWs w = true)
        ∧ (seg ≠ [] → seg.getLast? = (acc.reverse ++ l).getLast?) := by
  intro fuel
  induction fuel with
  | zero =>
    intro acc l hne
    cases l with
    | nil =>
      refine ⟨acc.reverse, by simp [splitAtSep], ?_, ?_⟩
      · intro hseg
        rw [List.append_nil] at hne
        exact absurd hseg hne
      · intro _
        rw [List.append_nil]
    | cons c cs =>
      refine ⟨acc.reverse ++ c :: cs, by simp [splitAtSep], ?_, ?_⟩
      · intro hseg
        simp at hseg
      · intro _
        rfl
  | succ f ih =>
    intro acc l hne
    cases l with
    | nil =>
      refine ⟨acc.reverse, by simp [splitAtSep], ?_, ?_⟩
      · intro hseg
        rw [List.append_nil] at hne
        exact absurd hseg hne
      · intro _
        rw [List.append_nil]
    | cons c cs =>
      rw [splitAtSep]
      cases hs : sep (c :: cs) with
      | none =>
        dsimp only
        have hne' : (c :: acc).reverse ++ cs ≠ [] := by simp
        obtain ⟨seg, h1, h2, h3⟩ := ih (c :: acc) cs hne'
        have hrw : (c :: acc).reverse ++ cs = acc.reverse ++ (c :: cs) := by simp
        rw [hrw] at h2 h3
        exact ⟨seg, h1, h2, h3⟩
      | some rest =>
        dsimp only
        have hsplitne := splitAtSep_ne_nil sep f [] rest
        have hcons : (acc.reverse :: splitAtSep sep [] rest f).getLast?
            = (splitAtSep sep [] rest f).getLast? := by
          rw [show acc.reverse :: splitAtSep sep [] rest f
              = [acc.reverse] ++ splitAtSep sep [] rest f from rfl]
          exact List.getLast?_append_of_ne_nil _ hsplitne
        have hlsuf : (acc.reverse ++ (c :: cs)).getLast? = (c :: cs).getLast? :=
          List.getLast?_append_cons acc.reverse c cs
        by_cases hrest : rest = []
        · subst hrest
          have hz : splitAtSep sep [] [] f = [[]] := by cases f <;> rfl
          rw [hcons, hz]
          refine ⟨[], rfl, ?_, ?_⟩
          · intro _
            obtain ⟨w, hw1, hw2⟩ := (hsep (c :: cs) [] hs).1 rfl
            exact ⟨w, by rw [hlsuf]; exact hw1, hw2⟩
          · intro hcontra
            exact absurd rfl hcontra
        · obtain ⟨seg, h1, h2, h3⟩ := ih [] rest (by simpa using hrest)
          simp only [List.reverse_nil, List.nil_append] at h2 h3
          have hrl : rest.getLast? = (c :: cs).getLast? := (hsep (c :: cs) rest hs).2 hrest
          refine ⟨seg, by rw [hcons]; exact h1, ?_, ?_⟩
          · intro hseg
            obtain ⟨w, hw1, hw2⟩ := h2 hseg
            refine ⟨w, ?_, hw2⟩
            rw [hlsuf, ← hrl]
            exact hw1
          · intro hseg
            rw [h3 hseg, hrl, hlsuf]

/-- Both parts of a successful case-name split strip non-empty, given a
stripped non-empty case name. -/
theorem split_parts_nonempty (cn a b : List Char)
    (hh : ∃ c r, cn = c :: r ∧ isPyWs c = false)
    (hl : ∃ w, cn.getLast? = some w ∧ isPyWs w = false)
    (hsplit : splitAtSep versusSepAppAt [] cn cn.length = [a, b]) :
    pyStripChars a ≠ [] ∧ pyStripChars b ≠ [] := by
  obtain ⟨c, r, rfl, hcws⟩ := hh
  obtain ⟨w, hw, hwws⟩ := hl
  have hstep : splitAtSep versusSepAppAt [] (c :: r) (c :: r).length
      = splitAtSep versusSepAppAt [c] r r.length := by
    rw [show (c :: r).length = r.length + 1 from rfl, splitAtSep,
      versusSepAppAt_not_ws c r hcws]
  rw [hstep] at hsplit
  constructor
  · obtain ⟨t, ht⟩ := splitAtSep_head versusSepAppAt r.length [c] r
    rw [hsplit] at ht
    simp only [List.head?_cons, Option.some.injEq] at ht
    apply pyStripChars_ne_nil _ c
    · rw [ht]
      simp
    · exact hcws
  · obtain ⟨seg, h1, h2, h3⟩ := splitAtSep_getLast versusSepAppAt versusSepAppAt_spec
      r.length [c] r (by simp)
    rw [hsplit] at h1
    have hb' : some b = some seg := by rw [← h1]; rfl
    rw [Option.some.injEq] at hb'
    subst hb'
    have hin : ([c] : List Char).reverse ++ r = c :: r := by simp
    rw [hin] at h2 h3
    by_cases hbe : b = []
    · obtain ⟨w2, hw2, hw2ws⟩ := h2 hbe
      rw [hw, Option.some.injEq] at hw2
      rw [hw2] at hwws
      rw [hwws] at hw2ws
      exact absurd hw2ws Bool.false_ne_true
    · have hblast := h3 hbe
      rw [hw] at hblast
      apply pyStripChars_ne_nil _ w
      · exact List.mem_of_getLast?_eq_some hblast
      · exact hwws

/-- A normalized case name starts and ends with non-whitespace. -/
theorem normalize_case_name_facts (nm : Option String) (cn : String)
    (h : normalize_case_name nm = some cn) :
    (∃ c r, cn.data = c :: r ∧ isPyWs c = false)
    ∧ (∃ w, cn.data.getLast? = some w ∧ isPyWs w = false) := by
  unfold normalize_case_name at h
  cases nm with
  | none => exact absurd h (by simp)
  | some s =>
    dsimp only at h
    by_cases hs : s = ""
    · rw [if_pos hs] at h
      exact absurd h (by simp)
    · rw [if_neg hs] at h
      try dsimp only at h
      split at h
      next heq => exact absurd h (by simp)
      next c rest heq =>
        rw [Option.some.injEq] at h
        subst h
        have hc : isPyWs c = false := pyStripChars_head _ c rest heq
        constructor
        · exact ⟨c.toUpper, rest, rfl, isPyWs_toUpper_false c hc⟩
        · cases rest with
          | nil =>
            exact ⟨c.toUpper, rfl, isPyWs_toUpper_false c hc⟩
          | cons x t =>
            have hrne : (x :: t) ≠ [] := List.cons_ne_nil x t
            cases hgl : (x :: t).getLast? with
            | none => exact absurd (List.getLast?_eq_none_iff.mp hgl) hrne
            | some wl =>
              refine ⟨wl, ?_, ?_⟩
              · rw [show (String.mk (c.toUpper :: x :: t)).data
                    = c.toUpper :: x :: t from rfl,
                  show (c.toUpper :: x :: t) = [c.toUpper] ++ (x :: t) from rfl,
                  List.getLast?_append_of_ne_nil _ hrne]
                exact hgl
              · apply pyStripChars_last _ wl
                rw [heq, show (c :: x :: t) = [c] ++ (x :: t) from rfl,
                  List.getLast?_append_of_ne_nil _ hrne]
                exact hgl

/-- Every respondent returned by the party extractor is non-empty. -/
theorem extract_parties_resp_ne (h : String) (e : List (String × List String)) :
    ∀ x ∈ (extract_parties h e).2, x ≠ "" := by
  rcases extract_parties_cases h e with hc | ⟨g, _, hc⟩ | ⟨a, r, _, hrne, hc⟩
      | ⟨xs, ys, _, hys, hc⟩ <;> rw [hc] <;> intro x hx
  · cases hx
  · exact names_from_block_ne _ x hx
  · rw [List.mem_singleton.mp hx]
    exact hrne
  · have hx2 : x ∈ ys := (List.take_sublist _ _).subset hx
    rcases hys with rfl | ⟨b, rfl⟩
    · cases hx2
    · exact names_from_block_ne _ x hx2

/-- The head of the respondent list assembled by `extract_full_data`
(party extraction plus the case-name split fallback) is non-empty. -/
theorem split_head_ne (cn0 : Option String) (ar1 ar2 : List String)
    (har2 : ∀ x ∈ ar2, x ≠ "")
    (hcn : ∀ cn, cn0 = some cn →
      (∃ c r, cn.data = c :: r ∧ isPyWs c = false)
      ∧ (∃ w, cn.data.getLast? = some w ∧ isPyWs w = false)) :
    ∀ r rest,
      (match (match cn0 with
              | some cn =>
                if findSubCS " v. ".data cn.data ∧ (ar1 = [] ∨ ar2 = []) then
                  match splitAtSep versusSepAppAt [] cn.data cn.data.length with
                  | [a, b] => some (pyStrip (String.mk a), pyStrip (String.mk b))
                  | _ => none
                else none
              | none => none) with
        | some pr => if ar2 = [] then [pr.2] else ar2
        | none => ar2) = r :: rest → r ≠ "" := by
  intro r rest h
  cases cn0 with
  | none =>
    dsimp only at h
    exact har2 r (by rw [h]; exact List.mem_cons_self _ _)
  | some cn =>
    dsimp only at h
    by_cases hg : findSubCS " v. ".data cn.data ∧ (ar1 = [] ∨ ar2 = [])
    · rw [if_pos hg] at h
      split at h
      next pr heq =>
        split at heq
        next a b heq2 =>
          rw [Option.some.injEq] at heq
          subst heq
          by_cases har : ar2 = []
          · rw [if_pos har] at h
            cases h
            obtain ⟨hcn1, hcn2⟩ := hcn cn rfl
            have hbne := (split_parts_nonempty cn.data a b hcn1 hcn2 heq2).2
            intro hcontra
            exact hbne (congrArg String.data hcontra)
          · rw [if_neg har] at h
            exact har2 r (by rw [h]; exact List.mem_cons_self _ _)
        next heq2 =>
          exact absurd heq (by simp)
      next heq =>
        exact har2 r (by rw [h]; exact List.mem_cons_self _ _)
    · rw [if_neg hg] at h
      dsimp only at h
      exact har2 r (by rw [h]; exact List.mem_cons_self _ _)

/-- `valuesOk` over an append. -/
theorem valuesOk_append (xs ys : List (String × Value)) :
    valuesOk (xs ++ ys) = (valuesOk xs && valuesOk ys) := by
  induction xs with
  | nil => simp [valuesOk]
  | cons kv rest ih =>
    rw [List.cons_append, valuesOk, valuesOk, ih, Bool.and_assoc]

/-- Appending a guarded non-empty string field preserves `valuesOk`. -/
theorem valuesOk_match_str (o : Option String) (xs : List (String × Value)) (k : String)
    (hxs : valuesOk xs = true) :
    valuesOk (match o with
      | some v => if v ≠ "" then xs ++ [(k, Value.str v)] else xs
      | none => xs) = true := by
  cases o with
  | none => exact hxs
  | some v =>
    dsimp only
    by_cases hv : v ≠ ""
    · rw [if_pos hv, valuesOk_append, hxs]
      simp [valuesOk, valueOk, hv]
    · rw [if_neg hv]
      exact hxs

/-- Appending a guarded non-empty list field preserves `valuesOk`. -/
theorem valuesOk_ite_list (l : List String) (xs : List (String × Value)) (k : String)
    (hxs : valuesOk xs = true) :
    valuesOk (if l ≠ [] then xs ++ [(k, Value.list l)] else xs) = true := by
  by_cases hl : l ≠ []
  · rw [if_pos hl, valuesOk_append, hxs]
    simp [valuesOk, valueOk, hl]
  · rw [if_neg hl]
    exact hxs

/-- Appending the head of a list of non-empty strings preserves
`valuesOk`. -/
theorem valuesOk_match_head (rs : List String) (xs : List (String × Value)) (k : String)
    (hr : ∀ r rest, rs = r :: rest → r ≠ "") (hxs : valuesOk xs = true) :
    valuesOk (match rs with
      | r :: _ => xs ++ [(k, Value.str r)]
      | [] => xs) = true := by
  cases rs with
  | nil => exact hxs
  | cons r rest =>
    dsimp only
    rw [valuesOk_append, hxs]
    simp [valuesOk, valueOk, hr r rest rfl]

/-- The guarded case-name field is a `valuesOk` record. -/
theorem valuesOk_s1 (cn : Option String) :
    valuesOk (match cn with
      | some c => if c ≠ "" then [(("case_name" : String), Value.str c)] else []
      | none => []) = true := by
  cases cn with
  | none => rfl
  | some c =>
    dsimp only
    by_cases hc : c ≠ ""
    · rw [if_pos hc]
      simp [valuesOk, valueOk, hc]
    · rw [if_neg hc]
      rfl

/-- The guarded advocates object preserves `valuesOk`. -/
theorem valuesOk_adv (a r : List String) (xs : List (String × Value))
    (hxs : valuesOk xs = true) :
    valuesOk (if a ≠ [] ∨ r ≠ [] then
        xs ++ [("advocates", Value.obj
          ((if a ≠ [] then [("for_appellants", Value.list a)] else []) ++
           (if r ≠ [] then [("for_respondent", Value.list r)] else [])))]
      else xs) = true := by
  by_cases hcond : a ≠ [] ∨ r ≠ []
  · rw [if_pos hcond, valuesOk_append, hxs]
    by_cases ha : a ≠ []
    · by_cases hb : r ≠ []
      · rw [if_pos ha, if_pos hb]
        simp [valuesOk, valueOk, ha, hb, List.isEmpty]
      · rw [if_pos ha, if_neg hb]
        simp [valuesOk, valueOk, ha, List.isEmpty]
    · by_cases hb : r ≠ []
      · rw [if_neg ha, if_pos hb]
        simp [valuesOk, valueOk, hb, List.isEmpty]
      · rcases hcond with hcond | hcond
        · exact absurd hcond ha
        · exact absurd hcond hb
  · rw [if_neg hcond]
    exact hxs

/-- A guarded object field preserves `valuesOk`. -/
theorem valuesOk_ite_obj (o : List (String × Value)) (xs : List (String × Value))
    (k : String) (ho : valuesOk o = true) (hxs : valuesOk xs = true) :
    valuesOk (if o.isEmpty then xs else xs ++ [(k, Value.obj o)]) = true := by
  by_cases hE : o.isEmpty = true
  · rw [if_pos hE]
    exact hxs
  · rw [if_neg hE, valuesOk_append, hxs]
    simp [valuesOk, valueOk, Bool.eq_false_iff.mpr hE, ho]

/-- A guarded singleton object is a `valuesOk` record. -/
theorem valuesOk_obj_singleton (o : List (String × Value)) (k : String)
    (ho : valuesOk o = true) :
    valuesOk (if o.isEmpty then [] else [(k, Value.obj o)]) = true := by
  by_cases hE : o.isEmpty = true
  · rw [if_pos hE]
    rfl
  · rw [if_neg hE]
    simp [valuesOk, valueOk, Bool.eq_false_iff.mpr hE, ho]

/-- A guarded non-empty list singleton is a `valuesOk` record. -/
theorem valuesOk_guard_list (l : List String) (k : String) :
    valuesOk (if l ≠ [] then [(k, Value.list l)] else []) = true := by
  by_cases hl : l ≠ []
  · rw [if_pos hl]
    simp [valuesOk, valueOk, hl]
  · rw [if_neg hl]
    rfl

/-- A guarded non-empty string singleton is a `valuesOk` record. -/
theorem valuesOk_guard_str (s k : String) :
    valuesOk (if s ≠ "" then [(k, Value.str s)] else []) = true := by
  by_cases hs : s ≠ ""
  · rw [if_pos hs]
    simp [valuesOk, valueOk, hs]
  · rw [if_neg hs]
    rfl

set_option maxHeartbeats 8000000 in
/-- C2 (amended).  The assembled structured record never contains a key
whose value is an empty string, empty list, or empty object — every
field addition is guarded, recursively through the nested advocate and
content objects.  (The fused per-label dictionary feeding it, by
contrast, does pad empty lists: see the counterexample.) -/
theorem record_no_empty_values
    (bertHeader bertBody : List (String × List String))
    (spacyEnts : List (String × String)) (headerText : String)
    (rawCaseName : Option String) (advApp advResp bgFacts : List String)
    (osResult osDecision : String) (osDirections : List String) (now : PyDate) :
    valuesOk (extract_full_data bertHeader bertBody spacyEnts headerText rawCaseName
      advApp advResp bgFacts osResult osDecision osDirections now) = true := by
  unfold extract_full_data
  dsimp only
  generalize merge_entities (tagEnts bertHeader " [header]" ++ tagEnts bertBody " [body]")
    spacyEnts = fo
  have hresp : ∀ x ∈ (extract_parties headerText fo).2, x ≠ "" :=
    extract_parties_resp_ne _ _
  generalize hAR : extract_parties headerText fo = ar
  rw [hAR] at hresp
  generalize hCN : normalize_case_name rawCaseName = cn0
  have hcnf : ∀ cn, cn0 = some cn →
      (∃ c r, cn.data = c :: r ∧ isPyWs c = false)
      ∧ (∃ w, cn.data.getLast? = some w ∧ isPyWs w = false) :=
    fun cn hcn => normalize_case_name_facts rawCaseName cn (hCN.trans hcn)
  apply valuesOk_ite_obj
  · rw [valuesOk_append, valuesOk_guard_list, Bool.true_and]
    apply valuesOk_obj_singleton
    rw [valuesOk_append, valuesOk_append, valuesOk_guard_str, valuesOk_guard_str,
      valuesOk_guard_list]
    rfl
  · apply valuesOk_ite_list
    apply valuesOk_ite_list
    apply valuesOk_ite_list
    apply valuesOk_ite_list
    apply valuesOk_ite_list
    apply valuesOk_adv
    split
    next r tail heq =>
      rw [valuesOk_append, Bool.and_eq_true]
      constructor
      · apply valuesOk_ite_list
        apply valuesOk_ite_list
        apply valuesOk_match_str
        apply valuesOk_match_str
        apply valuesOk_match_str
        exact valuesOk_s1 _
      · have hrne : r ≠ "" := by
          split at heq
          next pr heq1 =>
            split at heq1
            next cn =>
              split at heq1
              next hguard =>
                split at heq1
                next a b heq2 =>
                  rw [Option.some.injEq] at heq1
                  subst heq1
                  by_cases har : ar.2 = []
                  · rw [if_pos har] at heq
                    cases heq
                    obtain ⟨h1f, h2f⟩ := hcnf cn rfl
                    have hbne := (split_parts_nonempty cn.data a b h1f h2f heq2).2
                    intro hcontra
                    exact hbne (congrArg String.data hcontra)
                  · rw [if_neg har] at heq
                    exact hresp r (by rw [heq]; exact List.mem_cons_self _ _)
                next heq2 =>
                  exact absurd heq1 (by simp)
              next hguard =>
                exact absurd heq1 (by simp)
            next =>
              exact absurd heq1 (by simp)
          next heq1 =>
            exact hresp r (by rw [heq]; exact List.mem_cons_self _ _)
        simp [valuesOk, valueOk, hrne]
    next heq =>
      apply valuesOk_ite_list
      apply valuesOk_ite_list
      apply valuesOk_match_str
      apply valuesOk_match_str
      apply valuesOk_match_str
      exact valuesOk_s1 _

end InfoExtract
